import Mathlib

/-!
# Map matching: output model, geometric identifiers, index packing, matcher

A shallow embedding of parts of `input.cpp`, `graph.h`, `spatial.h` and
`frechet.h`.

Conventions of the embedding:
* `std::vector<T>` is a `List T`, `std::string` is a `List Char`;
* `double` values are exact rationals (`ℚ`): rounding of the machine
  arithmetic, infinities and NaN are not represented;
* `int` / `int32_t` values are `Int`, `size_t` values are `Nat`, with an
  explicit reduction modulo `2 ^ 64` wherever the source can wrap;
* a thrown exception is an `Except.error`.
-/

set_option linter.unusedVariables false

namespace mmatch

/-! ## Output model (`input.cpp`) -/

/-- Modelled from the spec: what a call can throw. The class `Exception` is
declared in a header that is not among the sources and carries the message it is
constructed with; `out_of_range` is the standard exception of
`std::string::substr` for a start position beyond the end of the string. -/
inductive Thrown where
  | exception (msg : String)
  | out_of_range
  deriving DecidableEq, Repr

/-- Modelled from the spec: `struct Estimate` is declared in `input.h`, which is
not among the sources; `input.cpp` uses exactly the two fields `edge` (assigned
from `atoi`) and `confidence` (assigned from `atof`). -/
structure Estimate where
  edge : Int
  confidence : ℚ
  deriving DecidableEq, Repr

instance : Inhabited Estimate := ⟨⟨0, 0⟩⟩

/-- Modelled from the spec: `class Output` is declared in `input.h`, which is
not among the sources; `input.cpp` uses its member `m_estmns`, a vector of
estimates. -/
structure Output where
  m_estmns : List Estimate
  deriving DecidableEq, Repr

/-- Modelled from the spec: accessor `estimates()` of `input.h`, the vector of
estimates. -/
def Output.estimates (o : Output) : List Estimate := o.m_estmns

/-- Modelled from the spec: accessor `edge(i)` of `input.h`, the edge of the
estimate at index `i`. -/
def Output.edge (o : Output) (i : Nat) : Int := (o.m_estmns.getD i default).edge

/-- Modelled from the spec: accessor `confidence(i)` of `input.h`, the
confidence of the estimate at index `i`. -/
def Output.confidence (o : Output) (i : Nat) : ℚ := (o.m_estmns.getD i default).confidence

/-- The loop of `Output::evaluate` (`input.cpp` lines 126-130), started at index
`i` with accumulator `result`: while `i < estimates().size()`, add
`confidence(i)` when `edge(i) == according.edge(i)`, and increment `i`. -/
def Output.evaluateLoop (self according : Output) (i : Nat) (result : ℚ) : ℚ :=
  if i < self.estimates.length then
    Output.evaluateLoop self according (i + 1)
      (if self.edge i = according.edge i then result + self.confidence i else result)
  else result
termination_by self.estimates.length - i

/-- `Output::evaluate` (`input.cpp` lines 121-132). -/
def Output.evaluate (self according : Output) : Except Thrown ℚ :=
  if self.estimates.length ≠ according.estimates.length then
    Except.error (Thrown.exception "sizes must be equal to evaluate")
  else
    Except.ok (Output.evaluateLoop self according 0 0 / (self.estimates.length : ℚ))

/-! ### Text primitives of the standard library used by `input.cpp` -/

/-- Modelled from the spec: the constant `IO_DELIM` is defined in a header that
is not among the sources; the field delimiter is the character `|`. -/
def IO_DELIM : Char := '|'

/-- The value `std::string::npos`, the largest `size_t`. -/
def npos : Nat := 2 ^ 64 - 1

/-- Search of `c` in `s`, where `s` starts at absolute position `i` of the
string: the absolute position of the first occurrence, or `npos`. -/
def findAux (c : Char) : List Char → Nat → Nat
  | [], _ => npos
  | x :: xs, i => if x = c then i else findAux c xs (i + 1)

/-- The call `s.find(c, pos)` of `std::string`: the position of the first `c` at
or after `pos`, or `npos`. -/
def find (s : List Char) (c : Char) (pos : Nat) : Nat :=
  findAux c (s.drop pos) pos

/-- The call `s.substr(pos, count)` of `std::string`: throws `out_of_range` when
`pos > s.size()`, else the at most `count` characters from `pos` on. -/
def substr (s : List Char) (pos count : Nat) : Except Thrown (List Char) :=
  if s.length < pos then Except.error Thrown.out_of_range
  else Except.ok ((s.drop pos).take count)

/-- The predicate `isspace` of the C locale. -/
def isspace (c : Char) : Bool :=
  c = ' ' || c = '\t' || c = '\n' || c = '\x0b' || c = '\x0c' || c = '\r'

/-- The predicate `isdigit`. -/
def isdigit (c : Char) : Bool := decide (48 ≤ c.toNat) && decide (c.toNat ≤ 57)

/-- The value of a decimal digit character. -/
def digitVal (c : Char) : Nat := c.toNat - 48

/-- The character of a decimal digit. -/
def digitChar (d : Nat) : Char := Char.ofNat (48 + d)

/-- The number denoted by a string of decimal digits, most significant first. -/
def digitsVal (ds : List Char) : Nat := ds.foldl (fun a c => a * 10 + digitVal c) 0

/-- An optional sign at the head of a numeral: whether it is negative, and the
rest. -/
def takeSign : List Char → Bool × List Char
  | '-' :: r => (true, r)
  | '+' :: r => (false, r)
  | r => (false, r)

/-- The function `atoi`: white space is skipped, then an optional sign and the
longest run of decimal digits are converted; `0` when there is no digit. The
result is the mathematical value (the C function is undefined when that value
does not fit an `int`). -/
def atoi (s : List Char) : Int :=
  let p := takeSign (s.dropWhile isspace)
  let v : Int := (digitsVal (p.2.takeWhile isdigit) : Nat)
  if p.1 then -v else v

/-- The decimal exponent part of a floating-point numeral, `0` when absent or
without digits. -/
def parseExponent : List Char → Int
  | c :: r =>
    if c = 'e' || c = 'E' then
      let p := takeSign r
      let v : Int := (digitsVal (p.2.takeWhile isdigit) : Nat)
      if p.1 then -v else v
    else 0
  | [] => 0

/-- The magnitude converted by `atof` from the text after the sign: digits, an
optional `.` with digits and an optional exponent; `0` when the mantissa has no
digit. -/
def atofMagnitude (s : List Char) : ℚ :=
  let ip := s.takeWhile isdigit
  let s3 := s.dropWhile isdigit
  let fp := match s3 with
    | '.' :: r => r.takeWhile isdigit
    | _ => []
  let s4 := match s3 with
    | '.' :: r => r.dropWhile isdigit
    | _ => s3
  if ip = [] ∧ fp = [] then 0
  else (digitsVal (ip ++ fp) : ℚ) / 10 ^ fp.length * 10 ^ parseExponent s4

/-- The function `atof` on decimal numerals: white space is skipped, then an
optional sign and the magnitude are converted. The result is the exact value of
the numeral; hexadecimal numerals, infinities and NaN are not represented. -/
def atof (s : List Char) : ℚ :=
  let p := takeSign (s.dropWhile isspace)
  if p.1 then -atofMagnitude p.2 else atofMagnitude p.2

/-- Decimal digits of a natural number, most significant first, as written by
`operator<<` for a non-negative integer. -/
def showNat (n : Nat) : List Char :=
  if n < 10 then [digitChar n] else showNat (n / 10) ++ [digitChar (n % 10)]
termination_by n
decreasing_by omega

/-- The text `operator<<` writes for an `int`. -/
def showInt (n : Int) : List Char :=
  if n < 0 then '-' :: showNat n.natAbs else showNat n.toNat

/-- The integer nearest to `x`, ties to the even one (the default rounding of the
formatted output of floating-point values). -/
def roundHalfEven (x : ℚ) : Int :=
  let f := ⌊x⌋
  let r := x - f
  if r < 1 / 2 then f
  else if 1 / 2 < r then f + 1
  else if f % 2 = 0 then f else f + 1

/-- The text `operator<<` writes for a `double` on a stream with `floatfield`
set to `fixed` and `precision(2)`: sign, integer part, `.`, two decimals, of the
value rounded to the nearest hundredth. -/
def showFixed2 (q : ℚ) : List Char :=
  let k := (roundHalfEven (|q| * 100)).toNat
  (if q < 0 then ['-'] else []) ++ showNat (k / 100) ++
    ['.', digitChar (k / 10 % 10), digitChar (k % 10)]

/-- Rounding to the nearest hundredth, ties to even: the value of the text that
`showFixed2` writes. -/
def round2 (q : ℚ) : ℚ :=
  let v : ℚ := ((roundHalfEven (|q| * 100)).toNat : ℚ) / 100
  if q < 0 then -v else v

/-- Truncation to two decimals (toward zero), as the specification words the
round trip of a confidence. -/
def truncate2 (q : ℚ) : ℚ :=
  if 0 ≤ q then (⌊q * 100⌋ : ℚ) / 100 else (⌈q * 100⌉ : ℚ) / 100

/-- One call of `std::getline(stream, s)`: fails (`none`) at the end of the
stream, else extracts the characters up to the next newline, which is consumed
and not stored; the second component is the rest of the stream. -/
def getline : List Char → Option (List Char × List Char)
  | [] => none
  | c :: cs =>
    some ((c :: cs).takeWhile (fun x => x != '\n'),
          ((c :: cs).dropWhile (fun x => x != '\n')).tail)

/-! ### `Output::load` and `Output::save` -/

/-- The body of the loop of `Output::load` (`input.cpp` lines 90-101) on the
line `s`: the estimate that is pushed back. Positions are `size_t` and wrap
modulo `2 ^ 64`. -/
def Output.parseLine (s : List Char) : Except Thrown Estimate :=
  let posR := find s IO_DELIM 0
  let posL := (posR + 1) % 2 ^ 64
  let posR := find s IO_DELIM posL
  match substr s posL ((posR + 2 ^ 64 - posL) % 2 ^ 64) with
  | Except.error e => Except.error e
  | Except.ok f2 =>
    let posL := (posR + 1) % 2 ^ 64
    match substr s posL ((s.length + 2 ^ 64 - posL) % 2 ^ 64) with
    | Except.error e => Except.error e
    | Except.ok f3 => Except.ok ⟨atoi f2, atof f3⟩

/-- The loop `while (getline(ifoutput, s))` of `Output::load` on the rest of the
stream, with the estimates read so far. -/
def Output.loadLoop (stream : List Char) (estmns : List Estimate) :
    Except Thrown (List Estimate) :=
  match h : getline stream with
  | none => Except.ok estmns
  | some (s, rest) =>
    match Output.parseLine s with
    | Except.error e => Except.error e
    | Except.ok estmn => Output.loadLoop rest (estmns ++ [estmn])
termination_by stream.length
decreasing_by
  cases stream with
  | nil => simp [getline] at h
  | cons c cs =>
    simp only [getline, Option.some.injEq, Prod.mk.injEq] at h
    have hl := (List.dropWhile_suffix (l := c :: cs) (fun x => x != '\n')).length_le
    rw [← h.2, List.length_tail]
    simp only [List.length_cons] at hl ⊢
    omega

/-- `Output::load` (`input.cpp` lines 78-103); `file` is the content of the
named file, `none` when it cannot be opened. The previous estimates are
cleared. -/
def Output.load (_self : Output) (file : Option (List Char)) : Except Thrown Output :=
  match file with
  | none => Except.error (Thrown.exception "can't open input file")
  | some content =>
    match Output.loadLoop content [] with
    | Except.error e => Except.error e
    | Except.ok es => Except.ok ⟨es⟩

/-- The text written for the estimate at index `i` by one iteration of the loop
of `Output::save` (`input.cpp` line 116). -/
def Output.saveLine (self : Output) (i : Nat) : List Char :=
  showInt (i : Int) ++ [IO_DELIM] ++ showInt (self.m_estmns.getD i default).edge ++ [IO_DELIM]
    ++ showFixed2 (self.m_estmns.getD i default).confidence ++ ['\n']

/-- The loop of `Output::save` (`input.cpp` lines 115-116) from index `i` on,
`out` being the text written so far. -/
def Output.saveLoop (self : Output) (i : Nat) (out : List Char) : List Char :=
  if i < self.m_estmns.length then
    Output.saveLoop self (i + 1) (out ++ Output.saveLine self i)
  else out
termination_by self.m_estmns.length - i

/-- `Output::save` (`input.cpp` lines 106-117): the content of the written file;
`canOpen` tells whether the file can be opened for writing. -/
def Output.save (self : Output) (canOpen : Bool) : Except Thrown (List Char) :=
  if canOpen then Except.ok (Output.saveLoop self 0 [])
  else Except.error (Thrown.exception "can't open file for output")

/-- The record `<index>|<edge>|<confidence>` of the specification for the
estimate `e` at index `i`: decimal index, delimiter, decimal edge, delimiter,
confidence in fixed notation with two decimals. -/
def recordText (i : Nat) (e : Estimate) : List Char :=
  showInt (i : Int) ++ IO_DELIM :: (showInt e.edge ++ IO_DELIM :: showFixed2 e.confidence)

/-- The Outputs that the C++ types can hold: the loop index of `Output::save` is
an `int`, an edge is an `int`, and a confidence is a finite `double` (all of
which are below `10 ^ 309` in magnitude). -/
def Output.representable (o : Output) : Prop :=
  o.m_estmns.length < 2 ^ 31 ∧
  ∀ e ∈ o.m_estmns, -(2 ^ 31) ≤ e.edge ∧ e.edge < 2 ^ 31 ∧ |e.confidence| < 10 ^ 309

/-! ### `Input::loadUTM` -/

/-- Modelled from the spec: the point type `UTMNode` is declared in
`geometry.h`, which is not among the sources; a planar point `(x, y)`, built by
`UTMNode(x, y)`. -/
structure UTMNode where
  x : ℚ
  y : ℚ
  deriving DecidableEq, Repr

/-- Modelled from the spec: `class Input` is declared in `input.h`, which is
not among the sources; `input.cpp` uses its member `m_nodes`, the vector of
observations. -/
structure Input where
  m_nodes : List UTMNode
  deriving DecidableEq, Repr

/-- The body of the loop of `Input::loadUTM` (`input.cpp` lines 57-68) on the
line `s`: the observation that is pushed back. Positions are `size_t` and wrap
modulo `2 ^ 64`. -/
def Input.parseLineUTM (s : List Char) : Except Thrown UTMNode :=
  let posR := find s IO_DELIM 0
  let posL := (posR + 1) % 2 ^ 64
  let posR := find s IO_DELIM posL
  match substr s posL ((posR + 2 ^ 64 - posL) % 2 ^ 64) with
  | Except.error e => Except.error e
  | Except.ok f2 =>
    let lat := atof f2
    let posL := (posR + 1) % 2 ^ 64
    match substr s posL ((s.length + 2 ^ 64 - posL) % 2 ^ 64) with
    | Except.error e => Except.error e
    | Except.ok f3 =>
      let lon := atof f3
      Except.ok ⟨lat, lon⟩

/-- The loop `while (getline(ifinput, s))` of `Input::loadUTM` on the rest of
the stream, with the observations stored so far. -/
def Input.loadUTMLoop (stream : List Char) (nodes : List UTMNode) :
    Except Thrown (List UTMNode) :=
  match h : getline stream with
  | none => Except.ok nodes
  | some (s, rest) =>
    match Input.parseLineUTM s with
    | Except.error e => Except.error e
    | Except.ok node => Input.loadUTMLoop rest (nodes ++ [node])
termination_by stream.length
decreasing_by
  cases stream with
  | nil => simp [getline] at h
  | cons c cs =>
    simp only [getline, Option.some.injEq, Prod.mk.injEq] at h
    have hl := (List.dropWhile_suffix (l := c :: cs) (fun x => x != '\n')).length_le
    rw [← h.2, List.length_tail]
    simp only [List.length_cons] at hl ⊢
    omega

/-- `Input::loadUTM` (`input.cpp` lines 46-70); `file` is the content of the
named file, `none` when it cannot be opened. Observations are appended to
`m_nodes`. -/
def Input.loadUTM (self : Input) (file : Option (List Char)) : Except Thrown Input :=
  match file with
  | none => Except.error (Thrown.exception "can't open input file")
  | some content =>
    match Input.loadUTMLoop content self.m_nodes with
    | Except.error e => Except.error e
    | Except.ok ns => Except.ok ⟨ns⟩

/-- The line `<id>|<x>|<y>` of an input trace in metric mode, as the
specification gives it, without its newline. -/
def traceLine (id x y : List Char) : List Char :=
  id ++ IO_DELIM :: (x ++ IO_DELIM :: y)

/-! ## Geometric identifiers and the road graph (`graph.h`) -/

/-- The constant `EID_COMMON` (`graph.h` line 20). -/
def EID_COMMON : Int := -1

/-- The struct `geom_id` (`graph.h` lines 26-56); both fields are `int32_t`. -/
structure geom_id where
  eid : Int
  gid : Int
  deriving DecidableEq, Repr

/-- `geom_id::operator<` (`graph.h` lines 36-39). -/
def geom_id.lt (a other : geom_id) : Bool :=
  if a.eid = other.eid then decide (a.gid < other.gid) else decide (a.eid < other.eid)

/-- `geom_id::operator==` (`graph.h` lines 41-44). -/
def geom_id.eq (a other : geom_id) : Bool :=
  decide (a.eid = other.eid) && decide (a.gid = other.gid)

/-- `geom_id::operator!=` (`graph.h` lines 46-49). -/
def geom_id.ne (a other : geom_id) : Bool := !(geom_id.eq a other)

/-- `geom_id::is_internal` (`graph.h` lines 51-54). -/
def geom_id.is_internal (a : geom_id) : Bool := decide (a.eid ≠ EID_COMMON)

/-- The class `Edge` (`graph.h` lines 74-110), without its name and type
strings. -/
structure Edge where
  id : Int
  «from» : Int
  «to» : Int
  cost : Int
  length : ℚ
  geometry : List UTMNode
  deriving DecidableEq, Repr

/-- The conversion of a signed integer to `size_t`: reduction modulo `2 ^ 64`. -/
def toSizeT (i : Int) : Nat := (i % 2 ^ 64).toNat

/-- The conversion of an integer to `int32_t`: the representative of its residue
modulo `2 ^ 32` in `[-2 ^ 31, 2 ^ 31)`. -/
def toInt32 (i : Int) : Int := (i + 2 ^ 31) % 2 ^ 32 - 2 ^ 31

/-- `Edge::geometry_id` (`graph.h` lines 99-106). The comparison of the
`int32_t` `gid` with `geometry.size()-1` is made in `size_t`: `gid` is
converted, and the subtraction wraps for an empty polyline. -/
def Edge.geometry_id (e : Edge) (gid : Int) : geom_id :=
  if gid = 0 then ⟨EID_COMMON, e.«from»⟩
  else if toSizeT gid = (e.geometry.length + 2 ^ 64 - 1) % 2 ^ 64 then ⟨EID_COMMON, e.«to»⟩
  else ⟨e.id, gid⟩

/-- The class `RoadGraph` (`graph.h` lines 117-162): its nodes and its edge
index (the adjacency lists are not used here); an edge pointer of the index is
the edge. -/
structure RoadGraph where
  m_nodes : List UTMNode
  m_edgeIndex : List Edge
  deriving Repr

/-- `RoadGraph::coord` (`graph.h` line 153). The subscripts are converted to
`size_t`; `none` stands for a subscript out of bounds, where the source is
undefined. -/
def RoadGraph.coord (g : RoadGraph) (id : geom_id) : Option UTMNode :=
  if id.is_internal then
    match g.m_edgeIndex[toSizeT id.eid]? with
    | none => none
    | some e => e.geometry[toSizeT id.gid]?
  else g.m_nodes[toSizeT id.gid]?

/-- The shape of a graph in which every geometric vertex has a coordinate:
every edge of the index is stored at the position of its `id`, its `from` and
`to` are valid node indices, and the first and last points of its polyline are
the coordinates of these nodes; vector sizes fit `size_t`. -/
def RoadGraph.wellFormed (g : RoadGraph) : Prop :=
  g.m_nodes.length < 2 ^ 64 ∧ g.m_edgeIndex.length < 2 ^ 64 ∧
  ∀ e ∈ g.m_edgeIndex,
    e.geometry.length < 2 ^ 64 ∧
    0 ≤ e.id ∧ g.m_edgeIndex[e.id.toNat]? = some e ∧
    0 ≤ e.«from» ∧ e.«from».toNat < g.m_nodes.length ∧
    0 ≤ e.«to» ∧ e.«to».toNat < g.m_nodes.length ∧
    e.geometry.head? = g.m_nodes[e.«from».toNat]? ∧
    e.geometry.getLast? = g.m_nodes[e.«to».toNat]?

/-! ## Identifier packing of the spatial index (`spatial.h`) -/

/-- The macro `SHAPE_ID(edgeID, geomID)` (`spatial.h` line 22): `edgeID` is
converted to `int32_t` and then to the unsigned 64-bit type, shifted left by 32
bits and or-ed with `geomID` (converted to the unsigned 64-bit type). The result
is an unsigned 64-bit value. -/
def SHAPE_ID (edgeID geomID : Int) : Nat :=
  (toSizeT (toInt32 edgeID) <<< 32) % 2 ^ 64 ||| toSizeT geomID

/-- The conversion of an unsigned 64-bit value to `id_type`, the signed 64-bit
identifier type of the spatial index in which identifiers are stored and
returned (`spatial.h` line 70). -/
def toIdType (u : Nat) : Int := ((u : Int) + 2 ^ 63) % 2 ^ 64 - 2 ^ 63

/-- The macro `EDGE_ID(id)` (`spatial.h` line 23) on an `id_type`: arithmetic
shift right by 32 bits. -/
def EDGE_ID (id : Int) : Int := id >>> (32 : Nat)

/-- The macro `GEOM_ID(id)` (`spatial.h` line 24) on an `id_type`. -/
def GEOM_ID (id : Int) : Int := Int.land id 0xffffffff

/-! ## The hash of `geom_id` (`graph.h`) -/

/-- The conversion of an integer to `int64_t`: the representative of its residue
modulo `2 ^ 64` in `[-2 ^ 63, 2 ^ 63)`. -/
def toInt64 (i : Int) : Int := (i + 2 ^ 63) % 2 ^ 64 - 2 ^ 63

/-- `std::hash<geom_id>::operator()` (`graph.h` lines 176-179): `eid` is
converted to `int64_t` and shifted left by 32 bits, the result is and-ed with
`gid` (promoted to `int64_t`) and converted to `size_t`. -/
def geom_id.hash (x : geom_id) : Nat :=
  toSizeT (Int.land (toInt64 (x.eid * 2 ^ 32)) x.gid)

/-! ## `MapPoint` (`spatial.h`) -/

/-- The conversion of a floating-point value to `int`: truncation toward
zero. -/
def truncToInt (q : ℚ) : Int := if 0 ≤ q then ⌊q⌋ else ⌈q⌉

/-- The class `MapPoint` (`spatial.h` lines 36-62), without the coordinates of
its base class: `mappedInputNodeId` is an `int`, `maxError` a `float`. -/
structure MapPoint where
  mappedInputNodeId : Int
  maxError : ℚ
  deriving DecidableEq, Repr

/-- `MapPoint::setMaxError` (`spatial.h` lines 47-48). -/
def MapPoint.setMaxError (p : MapPoint) (max : ℚ) : MapPoint :=
  { p with maxError := max }

/-- `MapPoint::getMaxError` (`spatial.h` lines 53-54): the return type is `int`,
the `float` member is converted. -/
def MapPoint.getMaxError (p : MapPoint) : Int := truncToInt p.maxError

/-- `MapPoint::operator<` (`spatial.h` lines 56-57): the member `maxError` of the
left operand is compared with `getMaxError()` of the right operand, converted
back to floating point. -/
def MapPoint.lt (p rnode : MapPoint) : Bool :=
  decide (p.maxError < ((MapPoint.getMaxError rnode : Int) : ℚ))

/-! ## The matcher (`frechet.h`) -/

/-- The constant `NN_NUMBER_GLOBAL` (`frechet.h` line 20). -/
def NN_NUMBER_GLOBAL : Nat := 50

/-- The constant `MAX_ERROR_GLOBAL` (`frechet.h` line 21). -/
def MAX_ERROR_GLOBAL : ℚ := 200

/-- The constant `MAX_CONSIDERED_AREA` (`frechet.h` line 22). -/
def MAX_CONSIDERED_AREA : ℚ := ((150 * 150 : Int) : ℚ)

/-- The constant `NUM_PARTS` (`frechet.h` line 23). -/
def NUM_PARTS : Nat := 10

/-- The constant `BUCKETS` (`frechet.h` line 26). -/
def BUCKETS : Nat := 100000

/-- The constant `INITIAL_ERROR` (`spatial.h` line 28). -/
def INITIAL_ERROR : ℚ := 100

/-- Modelled from the spec: the error kinds surfaced by the core (section 7 of
the specification); the sources have no such type. -/
inductive ErrorKind where
  | InputError
  | IOError
  | SizeMismatch
  deriving DecidableEq, Repr

/-- Modelled from the spec: the spatial index (`ISpatialIndex`, of an external
library), seen through its only query `nearest(P, k, maxRadius)`, which gives
geometric vertices with their squared distances. -/
structure SpatialIndex where
  nearest : UTMNode → Nat → ℚ → List (geom_id × ℚ)

/-- Modelled from the spec: the search of `match_frechet` (section 4.4, steps 1
to 5: candidate seeding, best-first search, assignment extraction, confidence),
whose implementation is not among the sources and which the specification gives
at design level only. On a graph, an index, a trace and `maxError²` it is `none`
when a malformed `GeomId` is received from the index, else it gives for every
observation index the estimate of its finalised state, `none` for an observation
with no finalised state. -/
def Search : Type :=
  RoadGraph → SpatialIndex → Input → ℚ → Option (Nat → Option Estimate)

/-- Modelled from the spec: what a call of `match_frechet` gives. The declaration
(`frechet.h` line 30) has the return type `Output`; the specification (section
7) has a failed match return a well-formed Output with sentinel estimates where
information is missing and surface the error through its error kind. -/
structure MatchResult where
  output : Output
  error : Option ErrorKind

/-- Modelled from the spec: whether a call of `match_frechet` fails with
`InputError` (sections 4.4 and 7): the trace is empty, the graph contains no
edges, or a malformed `GeomId` is received from the index. -/
def match_frechet_fails (search : Search) (graph : RoadGraph) (index : SpatialIndex)
    (input : Input) (max_error2 : ℚ) : Bool :=
  input.m_nodes.isEmpty || graph.m_edgeIndex.isEmpty ||
    (search graph index input max_error2).isNone

/-- Modelled from the spec: the estimate that `match_frechet` assigns to the
observation of index `i` (section 4.4): that of its finalised state; the
sentinel `edge = -1`, `confidence = 0` for an observation with no finalised
state, and where the information is missing because the match failed. -/
def match_frechet_estimate (search : Search) (graph : RoadGraph) (index : SpatialIndex)
    (input : Input) (max_error2 : ℚ) (i : Nat) : Estimate :=
  if match_frechet_fails search graph index input max_error2 then ⟨-1, 0⟩
  else
    match search graph index input max_error2 with
    | none => ⟨-1, 0⟩
    | some finalised =>
      match finalised i with
      | some e => e
      | none => ⟨-1, 0⟩

/-- Modelled from the spec: `match_frechet` is declared in `frechet.h` line 30,
its implementation is not among the sources. It returns an Output of the
trace's length, with the estimate of every observation in observation order,
also when the match is incomplete or failed (sections 4.4, 7 and 8), and
surfaces `InputError` when the match fails. -/
def match_frechet (search : Search) (graph : RoadGraph) (index : SpatialIndex)
    (input : Input) (max_error2 : ℚ) : MatchResult :=
  { output := ⟨(List.range input.m_nodes.length).map
      (match_frechet_estimate search graph index input max_error2)⟩
    error :=
      if match_frechet_fails search graph index input max_error2 then
        some ErrorKind.InputError
      else none }

/-- The call of `match_frechet` without its last argument: the declaration
(`frechet.h` line 30) gives `max_error2` the default `MAX_CONSIDERED_AREA`. -/
def match_frechet_default (search : Search) (graph : RoadGraph) (index : SpatialIndex)
    (input : Input) : MatchResult :=
  match_frechet search graph index input MAX_CONSIDERED_AREA

/-! ## The lines of a stream -/

/-- The lines that the loop `while (getline(stream, s))` reads from a stream, in
order. -/
def readLines (stream : List Char) : List (List Char) :=
  match h : getline stream with
  | none => []
  | some (s, rest) => s :: readLines rest
termination_by stream.length
decreasing_by
  cases stream with
  | nil => simp [getline] at h
  | cons c cs =>
    simp only [getline, Option.some.injEq, Prod.mk.injEq] at h
    have hl := (List.dropWhile_suffix (l := c :: cs) (fun x => x != '\n')).length_le
    rw [← h.2, List.length_tail]
    simp only [List.length_cons] at hl ⊢
    omega

/-! # Theorems -/

/-! ## `Output::evaluate` -/

/-- Invariant of the loop of `Output::evaluate`: started at `i` with accumulator
`result`, it adds the confidences of the matching indices from `i` on. -/
theorem Output.evaluateLoop_eq (self according : Output) (k i : Nat) (result : ℚ)
    (hk : i + k = self.estimates.length) :
    Output.evaluateLoop self according i result =
      result + ∑ j ∈ Finset.Ico i self.estimates.length,
        (if self.edge j = according.edge j then self.confidence j else 0) := by
  induction k generalizing i result with
  | zero =>
    rw [Output.evaluateLoop]
    have hi : ¬ i < self.estimates.length := by omega
    have he : Finset.Ico i self.estimates.length = ∅ := by
      apply Finset.Ico_eq_empty
      omega
    simp [hi, he]
  | succ k ih =>
    rw [Output.evaluateLoop]
    have hi : i < self.estimates.length := by omega
    rw [if_pos hi, ih (i + 1) _ (by omega), Finset.sum_eq_sum_Ico_succ_bot hi]
    split <;> ring

/-- The accumulator of `Output::evaluate` at the end of the loop. -/
theorem Output.evaluateLoop_zero (self according : Output) :
    Output.evaluateLoop self according 0 0 =
      ∑ j ∈ Finset.range self.estimates.length,
        (if self.edge j = according.edge j then self.confidence j else 0) := by
  rw [Output.evaluateLoop_eq self according self.estimates.length 0 0 (by omega),
    zero_add, Finset.range_eq_Ico]

/-- Claim C1: for Outputs `self` and `reference` of equal length,
`evaluate(reference)` returns the sum, over all indices, of the confidence of
`self` where the edges agree (and `0` elsewhere), divided by the length of
`self`. -/
theorem Output.evaluate_eq_matching_mean (self reference : Output)
    (h : self.estimates.length = reference.estimates.length) :
    Output.evaluate self reference =
      Except.ok ((∑ i ∈ Finset.range self.estimates.length,
        (if self.edge i = reference.edge i then self.confidence i else 0))
          / (self.estimates.length : ℚ)) := by
  unfold Output.evaluate
  rw [if_neg (not_not.mpr h), Output.evaluateLoop_zero]

/-- Claim C1, the scenario of the specification: edges `[1,2,3,4]` with
confidences `[0.9,0.8,0.7,0.6]` against a reference with edges `[1,2,3,5]` give
`(0.9+0.8+0.7)/4 = 0.6`. -/
theorem Output.evaluate_eq_matching_mean_witness :
    Output.evaluate ⟨[⟨1, 9 / 10⟩, ⟨2, 8 / 10⟩, ⟨3, 7 / 10⟩, ⟨4, 6 / 10⟩]⟩
        ⟨[⟨1, 1⟩, ⟨2, 1⟩, ⟨3, 1⟩, ⟨5, 1⟩]⟩
      = Except.ok ((9 / 10 + 8 / 10 + 7 / 10) / 4) ∧
    ((9 / 10 + 8 / 10 + 7 / 10) / 4 : ℚ) = 6 / 10 := by
  refine ⟨(Output.evaluate_eq_matching_mean _ _ (by rfl)).trans ?_, by norm_num⟩
  simp [Output.estimates, Output.edge, Output.confidence, Finset.sum_range_succ]

/-- Claim C2: `evaluate` throws (the exception with the size message) exactly
when the two Outputs differ in length, it returns a value exactly when they have
the same length, and it throws nothing else. -/
theorem Output.evaluate_throws_iff (self reference : Output) :
    (Output.evaluate self reference =
        Except.error (Thrown.exception "sizes must be equal to evaluate")
      ↔ self.estimates.length ≠ reference.estimates.length) ∧
    ((∃ v, Output.evaluate self reference = Except.ok v)
      ↔ self.estimates.length = reference.estimates.length) ∧
    (∀ e, Output.evaluate self reference = Except.error e →
      e = Thrown.exception "sizes must be equal to evaluate") := by
  unfold Output.evaluate
  by_cases h : self.estimates.length = reference.estimates.length
  · simp [h]
  · simp [h]

/-- Claim C8: evaluating an Output against itself gives the mean of its
confidences. -/
theorem Output.evaluate_self (o : Output) :
    Output.evaluate o o =
      Except.ok ((∑ i ∈ Finset.range o.estimates.length, o.confidence i)
        / (o.estimates.length : ℚ)) := by
  unfold Output.evaluate
  rw [if_neg (not_not.mpr rfl), Output.evaluateLoop_zero]
  simp

/-! ## `geom_id` and `Edge::geometry_id` -/

/-- Characterisation of `geom_id::operator==`. -/
theorem geom_id.eq_iff (a b : geom_id) :
    geom_id.eq a b = true ↔ (a.eid = b.eid ∧ a.gid = b.gid) := by
  simp [geom_id.eq]

/-- Characterisation of `geom_id::operator<`. -/
theorem geom_id.lt_iff (a b : geom_id) :
    geom_id.lt a b = true ↔ (a.eid < b.eid ∨ (a.eid = b.eid ∧ a.gid < b.gid)) := by
  unfold geom_id.lt
  split <;> simp <;> omega

/-- Claim C4: equality and ordering of `geom_id` are lexicographic on
`(eid, gid)`; `operator<` is a strict total order (irreflexive, transitive,
exactly one of `a < b`, `a == b`, `b < a` holds) and `operator!=` is the negation
of `operator==`. -/
theorem geom_id.lexicographic_strict_total_order :
    (∀ a b : geom_id, geom_id.eq a b = true ↔ (a.eid = b.eid ∧ a.gid = b.gid)) ∧
    (∀ a b : geom_id, geom_id.lt a b = true ↔
      (a.eid < b.eid ∨ (a.eid = b.eid ∧ a.gid < b.gid))) ∧
    (∀ a : geom_id, geom_id.lt a a = false) ∧
    (∀ a b c : geom_id, geom_id.lt a b = true → geom_id.lt b c = true →
      geom_id.lt a c = true) ∧
    (∀ a b : geom_id,
      (geom_id.lt a b = true ∧ geom_id.eq a b = false ∧ geom_id.lt b a = false) ∨
      (geom_id.lt a b = false ∧ geom_id.eq a b = true ∧ geom_id.lt b a = false) ∨
      (geom_id.lt a b = false ∧ geom_id.eq a b = false ∧ geom_id.lt b a = true)) ∧
    (∀ a b : geom_id, geom_id.eq a b = true ↔ a = b) ∧
    (∀ a b : geom_id, geom_id.ne a b = !(geom_id.eq a b)) := by
  refine ⟨?_, ?_, ?_, ?_, ?_, ?_, ?_⟩
  · exact geom_id.eq_iff
  · exact geom_id.lt_iff
  · intro a
    simp [geom_id.lt]
  · intro a b c
    simp only [geom_id.lt_iff]
    omega
  · intro a b
    simp only [← Bool.not_eq_true, geom_id.lt_iff, geom_id.eq_iff]
    omega
  · rintro ⟨a1, a2⟩ ⟨b1, b2⟩
    simp [geom_id.eq]
  · intro a b
    rfl

/-- The conversion to `size_t` leaves a non-negative integer below `2 ^ 64`
unchanged. -/
theorem toSizeT_of_nonneg (i : Int) (h0 : 0 ≤ i) (h1 : i < 2 ^ 64) :
    toSizeT i = i.toNat := by
  unfold toSizeT
  congr 1
  omega

/-- Claim C5: for an edge with `id >= 0` whose polyline has `n + 1` points,
`n >= 1`, and an index `0 <= g <= n`, `geometry_id(g)` is the node form of
`from` at `g = 0`, the node form of `to` at `g = n`, and `(id, g)` otherwise;
the result is internal exactly when `1 <= g <= n - 1`. -/
theorem Edge.geometry_id_canonical (e : Edge) (n : Nat) (g : Int)
    (hid : 0 ≤ e.id) (hn : 1 ≤ n) (hlen : e.geometry.length = n + 1)
    (hsz : e.geometry.length < 2 ^ 64) (hg0 : 0 ≤ g) (hgn : g ≤ n) :
    Edge.geometry_id e g =
      (if g = 0 then ⟨EID_COMMON, e.«from»⟩
       else if g = n then ⟨EID_COMMON, e.«to»⟩
       else ⟨e.id, g⟩) ∧
    ((Edge.geometry_id e g).is_internal = true ↔ (1 ≤ g ∧ g ≤ (n : Int) - 1)) := by
  have hg : toSizeT g = g.toNat := toSizeT_of_nonneg g hg0 (by omega)
  have hcmp : (toSizeT g = (e.geometry.length + 2 ^ 64 - 1) % 2 ^ 64) ↔ g = n := by
    rw [hg, hlen]
    omega
  have hform : Edge.geometry_id e g =
      (if g = 0 then ⟨EID_COMMON, e.«from»⟩
       else if g = n then ⟨EID_COMMON, e.«to»⟩
       else ⟨e.id, g⟩) := by
    unfold Edge.geometry_id
    by_cases h0 : g = 0
    · simp [h0]
    · by_cases h1 : g = n
      · rw [if_neg h0, if_pos (hcmp.mpr h1), if_neg h0, if_pos h1]
      · rw [if_neg h0, if_neg (fun h => h1 (hcmp.mp h)), if_neg h0, if_neg h1]
  refine ⟨hform, ?_⟩
  rw [hform]
  by_cases h0 : g = 0
  · simp [h0, geom_id.is_internal]
  · by_cases h1 : g = n
    · rw [if_neg h0, if_pos h1]
      simp only [geom_id.is_internal, ne_eq, not_true_eq_false, decide_False,
        Bool.false_eq_true, false_iff]
      omega
    · rw [if_neg h0, if_neg h1]
      simp only [geom_id.is_internal, EID_COMMON, decide_eq_true_eq]
      constructor
      · intro _
        omega
      · intro _
        omega

/-- Claim C5 at a concrete edge: on edge `7` from node `3` to node `5` with a
polyline of three points, index `1` is the only internal one. -/
theorem Edge.geometry_id_canonical_witness :
    Edge.geometry_id ⟨7, 3, 5, 1, 10, [⟨0, 0⟩, ⟨5, 0⟩, ⟨10, 0⟩]⟩ 1 = ⟨7, 1⟩ ∧
    Edge.geometry_id ⟨7, 3, 5, 1, 10, [⟨0, 0⟩, ⟨5, 0⟩, ⟨10, 0⟩]⟩ 2 = ⟨EID_COMMON, 5⟩ ∧
    Edge.geometry_id ⟨7, 3, 5, 1, 10, [⟨0, 0⟩, ⟨5, 0⟩, ⟨10, 0⟩]⟩ 0 = ⟨EID_COMMON, 3⟩ := by
  refine ⟨?_, ?_, ?_⟩
  · exact (Edge.geometry_id_canonical ⟨7, 3, 5, 1, 10, [⟨0, 0⟩, ⟨5, 0⟩, ⟨10, 0⟩]⟩ 2 1
      (by decide) (by decide) (by rfl) (by simp) (by decide) (by decide)).1
  · exact (Edge.geometry_id_canonical ⟨7, 3, 5, 1, 10, [⟨0, 0⟩, ⟨5, 0⟩, ⟨10, 0⟩]⟩ 2 2
      (by decide) (by decide) (by rfl) (by simp) (by decide) (by decide)).1
  · exact (Edge.geometry_id_canonical ⟨7, 3, 5, 1, 10, [⟨0, 0⟩, ⟨5, 0⟩, ⟨10, 0⟩]⟩ 2 0
      (by decide) (by decide) (by rfl) (by simp) (by decide) (by decide)).1

/-! ## `RoadGraph::coord` -/

/-- Claim C6: in a well-formed graph, for every edge `e` of the index and every
index `g` of its polyline, `coord(e.geometry_id(g))` is in bounds and is the
point `e.geometry[g]`. -/
theorem RoadGraph.coord_geometry_id (G : RoadGraph) (hwf : G.wellFormed) (e : Edge)
    (he : e ∈ G.m_edgeIndex) (g : Nat) (hg : g < e.geometry.length) :
    RoadGraph.coord G (Edge.geometry_id e (g : Int)) = some (e.geometry.get ⟨g, hg⟩) := by
  obtain ⟨hN, hE, hall⟩ := hwf
  obtain ⟨hsz, hid0, hidx, hf0, hf1, ht0, ht1, hhead, hlast⟩ := hall e he
  have hidlt : e.id.toNat < G.m_edgeIndex.length := by
    by_contra hcon
    rw [List.getElem?_eq_none (by omega)] at hidx
    exact Option.noConfusion hidx
  have hgS : toSizeT (g : Int) = g := by
    rw [toSizeT_of_nonneg _ (by omega) (by omega)]
    simp
  have hget : e.geometry[g]? = some (e.geometry.get ⟨g, hg⟩) := by
    rw [List.getElem?_eq_getElem hg]
    rfl
  unfold Edge.geometry_id
  by_cases h0 : (g : Int) = 0
  · have hg0 : g = 0 := by omega
    subst hg0
    rw [if_pos h0]
    simp only [RoadGraph.coord, geom_id.is_internal, EID_COMMON, ne_eq, not_true_eq_false,
      decide_False, Bool.false_eq_true, if_false]
    rw [toSizeT_of_nonneg _ hf0 (by omega), ← hhead, List.head?_eq_getElem?, hget]
  · rw [if_neg h0]
    by_cases h1 : toSizeT (g : Int) = (e.geometry.length + 2 ^ 64 - 1) % 2 ^ 64
    · rw [if_pos h1]
      have hgl : g = e.geometry.length - 1 := by
        rw [hgS] at h1
        omega
      simp only [RoadGraph.coord, geom_id.is_internal, EID_COMMON, ne_eq, not_true_eq_false,
        decide_False, Bool.false_eq_true, if_false]
      rw [toSizeT_of_nonneg _ ht0 (by omega), ← hlast, List.getLast?_eq_getElem?, ← hget]
      rw [hgl]
    · rw [if_neg h1]
      have hint : geom_id.is_internal ⟨e.id, (g : Int)⟩ = true := by
        simp only [geom_id.is_internal, EID_COMMON, decide_eq_true_eq]
        omega
      simp only [RoadGraph.coord, hint, if_true]
      rw [toSizeT_of_nonneg _ hid0 (by omega), hidx]
      simp only [hgS]
      exact hget

/-- Claim C6 on a concrete graph: two nodes and one edge with a polyline of
three points; the interior vertex is looked up in the polyline. -/
theorem RoadGraph.coord_geometry_id_witness :
    RoadGraph.coord ⟨[⟨0, 0⟩, ⟨10, 0⟩], [⟨0, 0, 1, 1, 10, [⟨0, 0⟩, ⟨5, 1⟩, ⟨10, 0⟩]⟩]⟩
      (Edge.geometry_id ⟨0, 0, 1, 1, 10, [⟨0, 0⟩, ⟨5, 1⟩, ⟨10, 0⟩]⟩ ((1 : Nat) : Int))
      = some ⟨5, 1⟩ :=
  RoadGraph.coord_geometry_id
    ⟨[⟨0, 0⟩, ⟨10, 0⟩], [⟨0, 0, 1, 1, 10, [⟨0, 0⟩, ⟨5, 1⟩, ⟨10, 0⟩]⟩]⟩
    (by simp [RoadGraph.wellFormed])
    ⟨0, 0, 1, 1, 10, [⟨0, 0⟩, ⟨5, 1⟩, ⟨10, 0⟩]⟩ (by simp) 1 (by simp)

/-! ## Identifier packing -/

/-- Bitwise and of a signed integer with the mask `0xffffffff` keeps its residue
modulo `2 ^ 32`. -/
theorem land_mask32 (x : Int) : Int.land x 0xffffffff = x % 2 ^ 32 := by
  cases x with
  | ofNat m =>
    show ((m &&& 4294967295 : Nat) : Int) = _
    have h := Nat.and_pow_two_sub_one_eq_mod m 32
    norm_num at h
    rw [h]
    simp
  | negSucc m =>
    show ((Nat.ldiff 4294967295 m : Nat) : Int) = _
    have h : Nat.ldiff 4294967295 m = 2 ^ 32 - (m % 2 ^ 32 + 1) := by
      apply Nat.eq_of_testBit_eq
      intro i
      rw [Nat.testBit_ldiff, Nat.testBit_two_pow_sub_succ (Nat.mod_lt _ (by norm_num)),
        Nat.testBit_mod_two_pow]
      have h1 := Nat.testBit_two_pow_sub_one 32 i
      norm_num at h1
      rw [h1]
      cases decide (i < 32) <;> simp
    rw [h, Int.negSucc_eq]
    have := Nat.mod_lt m (show 0 < 2 ^ 32 by norm_num)
    omega

/-- The packed identifier as a number: the residue of `eid` modulo `2 ^ 32` in
the upper half, `gid` in the lower half. -/
theorem SHAPE_ID_eq (eid gid : Int) (h1 : -(2 ^ 31) ≤ eid) (h2 : eid < 2 ^ 31)
    (h3 : 0 ≤ gid) (h4 : gid < 2 ^ 32) :
    ((SHAPE_ID eid gid : Nat) : Int) = (eid % 2 ^ 32) * 2 ^ 32 + gid := by
  unfold SHAPE_ID toSizeT toInt32
  have e1 : (((eid + 2 ^ 31) % 2 ^ 32 - 2 ^ 31) % 2 ^ 64).toNat <<< 32 % 2 ^ 64
      = 2 ^ 32 * (eid % 2 ^ 32).toNat := by
    rw [Nat.shiftLeft_eq]
    omega
  have e2 : (gid % 2 ^ 64).toNat < 2 ^ 32 := by omega
  rw [e1, ← Nat.mul_add_lt_is_or e2]
  push_cast
  omega

/-- Claim C7: for `eid` in `[-1, 2^31)` and `gid` in `[0, 2^32)`, the identifier
`SHAPE_ID(eid, gid)`, as stored in the index, gives back `eid` by `EDGE_ID`
(also for the node sentinel `-1`) and `gid` by `GEOM_ID`; read as an unsigned
value, `EDGE_ID` gives `eid` once converted to `int32_t`; and two pairs of that
range with the same identifier are equal. -/
theorem SHAPE_ID_roundtrip (eid gid : Int) (h1 : -1 ≤ eid) (h2 : eid < 2 ^ 31)
    (h3 : 0 ≤ gid) (h4 : gid < 2 ^ 32) :
    EDGE_ID (toIdType (SHAPE_ID eid gid)) = eid ∧
    GEOM_ID (toIdType (SHAPE_ID eid gid)) = gid ∧
    toInt32 (EDGE_ID ((SHAPE_ID eid gid : Nat) : Int)) = eid ∧
    GEOM_ID ((SHAPE_ID eid gid : Nat) : Int) = gid ∧
    (∀ eid2 gid2 : Int, -1 ≤ eid2 → eid2 < 2 ^ 31 → 0 ≤ gid2 → gid2 < 2 ^ 32 →
      SHAPE_ID eid2 gid2 = SHAPE_ID eid gid → eid2 = eid ∧ gid2 = gid) := by
  have hs := SHAPE_ID_eq eid gid (by omega) h2 h3 h4
  refine ⟨?_, ?_, ?_, ?_, ?_⟩
  · unfold EDGE_ID toIdType
    rw [Int.shiftRight_eq_div_pow, hs]
    norm_num
    omega
  · unfold GEOM_ID toIdType
    rw [land_mask32, hs]
    omega
  · unfold EDGE_ID toInt32
    rw [Int.shiftRight_eq_div_pow, hs]
    norm_num
    omega
  · unfold GEOM_ID
    rw [land_mask32, hs]
    omega
  · intro eid2 gid2 g1 g2 g3 g4 heq
    have hs2 := SHAPE_ID_eq eid2 gid2 (by omega) g2 g3 g4
    rw [heq, hs] at hs2
    omega

/-- Claim C7 at the node sentinel: the identifier of node `7`, packed with
`eid = -1`, unpacks to `(-1, 7)`. -/
theorem SHAPE_ID_roundtrip_witness :
    EDGE_ID (toIdType (SHAPE_ID (-1) 7)) = -1 ∧ GEOM_ID (toIdType (SHAPE_ID (-1) 7)) = 7 :=
  ⟨(SHAPE_ID_roundtrip (-1) 7 (by decide) (by decide) (by decide) (by decide)).1,
   (SHAPE_ID_roundtrip (-1) 7 (by decide) (by decide) (by decide) (by decide)).2.1⟩

/-! ## Text primitives -/

theorem digitChar_toNat (d : Nat) (h : d < 10) : (digitChar d).toNat = 48 + d := by
  unfold digitChar
  interval_cases d <;> rfl

theorem isdigit_digitChar (d : Nat) (h : d < 10) : isdigit (digitChar d) = true := by
  unfold isdigit
  rw [digitChar_toNat d h]
  simp
  omega

theorem digitVal_digitChar (d : Nat) (h : d < 10) : digitVal (digitChar d) = d := by
  unfold digitVal
  rw [digitChar_toNat d h]
  omega

theorem showNat_ne_nil (n : Nat) : showNat n ≠ [] := by
  rw [showNat]
  split <;> simp

theorem isdigit_of_mem_showNat (n : Nat) : ∀ c ∈ showNat n, isdigit c = true := by
  induction n using Nat.strong_induction_on with
  | _ n ih =>
    rw [showNat]
    split
    · intro c hc
      simp only [List.mem_singleton] at hc
      rw [hc]
      exact isdigit_digitChar n (by omega)
    · intro c hc
      rw [List.mem_append, List.mem_singleton] at hc
      rcases hc with hc | hc
      · exact ih (n / 10) (by omega) c hc
      · rw [hc]
        exact isdigit_digitChar _ (Nat.mod_lt _ (by norm_num))

theorem digitsVal_append_singleton (ds : List Char) (c : Char) :
    digitsVal (ds ++ [c]) = digitsVal ds * 10 + digitVal c := by
  simp [digitsVal, List.foldl_append]

theorem digitsVal_showNat (n : Nat) : digitsVal (showNat n) = n := by
  induction n using Nat.strong_induction_on with
  | _ n ih =>
    rw [showNat]
    split
    · simp [digitsVal, digitVal_digitChar n (by omega)]
    · rw [digitsVal_append_singleton, ih (n / 10) (by omega),
        digitVal_digitChar _ (Nat.mod_lt _ (by norm_num))]
      omega

theorem showNat_length_le (k n : Nat) (h : n < 10 ^ (k + 1)) : (showNat n).length ≤ k + 1 := by
  induction k generalizing n with
  | zero =>
    rw [showNat, if_pos (by simpa using h)]
    simp
  | succ k ih =>
    rw [showNat]
    split
    · simp
    · rw [List.length_append, List.length_singleton]
      have := ih (n / 10) (by
        rw [Nat.div_lt_iff_lt_mul (by norm_num)]
        rw [pow_succ] at h
        exact h)
      omega

/-! ## Splitting a line into fields -/

theorem findAux_append (c : Char) (a rest : List Char) (i : Nat) (ha : c ∉ a) :
    findAux c (a ++ c :: rest) i = i + a.length := by
  induction a generalizing i with
  | nil => simp [findAux]
  | cons x xs ih =>
    have hx : x ≠ c := fun h => ha (by simp [h])
    have hxs : c ∉ xs := fun h => ha (by simp [h])
    rw [List.cons_append, findAux, if_neg hx, ih (i + 1) hxs, List.length_cons]
    omega

theorem find_first (c : Char) (a rest : List Char) (ha : c ∉ a) :
    find (a ++ c :: rest) c 0 = a.length := by
  unfold find
  rw [List.drop_zero, findAux_append c a rest 0 ha]
  omega

theorem drop_field (a : List Char) (c : Char) (rest : List Char) :
    List.drop (a.length + 1) (a ++ c :: rest) = rest := by
  have h : a ++ c :: rest = (a ++ [c]) ++ rest := by simp
  rw [h]
  exact List.drop_left' (by simp)

theorem find_second (c : Char) (a b rest : List Char) (hb : c ∉ b) :
    find (a ++ c :: (b ++ c :: rest)) c (a.length + 1) = a.length + 1 + b.length := by
  unfold find
  rw [drop_field a c (b ++ c :: rest), findAux_append c b rest _ hb]

/-- The fields the two record parsers cut out of a line `a|b|c`. -/
theorem fields_of_line (a b c : List Char) (ha : IO_DELIM ∉ a) (hb : IO_DELIM ∉ b)
    (hlen : (a ++ IO_DELIM :: (b ++ IO_DELIM :: c)).length < 2 ^ 64) :
    let s := a ++ IO_DELIM :: (b ++ IO_DELIM :: c)
    let posL := (find s IO_DELIM 0 + 1) % 2 ^ 64
    let posR := find s IO_DELIM posL
    let posL2 := (posR + 1) % 2 ^ 64
    substr s posL ((posR + 2 ^ 64 - posL) % 2 ^ 64) = Except.ok b ∧
    substr s posL2 ((s.length + 2 ^ 64 - posL2) % 2 ^ 64) = Except.ok c := by
  intro s posL posR posL2
  have hslen : s.length = a.length + 1 + b.length + 1 + c.length := by
    simp only [s, List.length_append, List.length_cons]
    omega
  have hlen2 : s.length < 2 ^ 64 := hlen
  have h1 : posL = a.length + 1 := by
    simp only [posL, s]
    rw [find_first IO_DELIM a _ ha]
    omega
  have h2 : posR = a.length + 1 + b.length := by
    simp only [posR, s]
    rw [h1, find_second IO_DELIM a b c hb]
  have h3 : posL2 = a.length + 1 + b.length + 1 := by
    simp only [posL2]
    rw [h2]
    omega
  have hc1 : (posR + 2 ^ 64 - posL) % 2 ^ 64 = b.length := by
    rw [h1, h2]
    omega
  have hc2 : (s.length + 2 ^ 64 - posL2) % 2 ^ 64 = c.length := by
    rw [h3, hslen]
    omega
  rw [hc1, hc2, h1, h3]
  unfold substr
  constructor
  · rw [if_neg (by omega)]
    congr 1
    simp only [s]
    rw [drop_field a IO_DELIM _]
    exact List.take_left' rfl
  · rw [if_neg (by omega)]
    congr 1
    simp only [s]
    have h : a ++ IO_DELIM :: (b ++ IO_DELIM :: c) = (a ++ IO_DELIM :: b) ++ IO_DELIM :: c := by
      simp
    have hl : a.length + 1 + b.length + 1 = (a ++ IO_DELIM :: b).length + 1 := by
      simp only [List.length_append, List.length_cons]
      omega
    rw [h, hl, drop_field]
    exact List.take_length c

/-! ## Reading back what was written -/

theorem isspace_eq_false_of_isdigit (c : Char) (h : isdigit c = true) : isspace c = false := by
  unfold isdigit at h
  simp only [Bool.and_eq_true, decide_eq_true_eq] at h
  unfold isspace
  simp only [Bool.or_eq_false_iff, decide_eq_false_iff_not]
  refine ⟨⟨⟨⟨⟨?_, ?_⟩, ?_⟩, ?_⟩, ?_⟩, ?_⟩ <;>
  · intro hc
    rw [hc] at h
    revert h
    decide

theorem takeSign_of_isdigit (c : Char) (r : List Char) (h : isdigit c = true) :
    takeSign (c :: r) = (false, c :: r) := by
  unfold takeSign
  split
  · rename_i heq
    simp only [List.cons.injEq] at heq
    rw [heq.1] at h
    exact absurd h (by decide)
  · rename_i heq
    simp only [List.cons.injEq] at heq
    rw [heq.1] at h
    exact absurd h (by decide)
  · rfl

theorem takeWhile_isdigit_append (ds rest : List Char) (hds : ∀ c ∈ ds, isdigit c = true)
    (hrest : ∀ c, rest.head? = some c → isdigit c = false) :
    (ds ++ rest).takeWhile isdigit = ds ∧ (ds ++ rest).dropWhile isdigit = rest := by
  induction ds with
  | nil =>
    cases rest with
    | nil => simp
    | cons c r =>
      have hc := hrest c rfl
      simp [List.takeWhile, List.dropWhile, hc]
  | cons d ds ih =>
    have hd := hds d (by simp)
    have h := ih (fun c hc => hds c (by simp [hc]))
    simp [List.takeWhile, List.dropWhile, hd, h.1, h.2]

theorem atoi_showNat (n : Nat) : atoi (showNat n) = n := by
  have hne := showNat_ne_nil n
  have hdig := isdigit_of_mem_showNat n
  have hval := digitsVal_showNat n
  generalize showNat n = s at hne hdig hval
  cases s with
  | nil => exact absurd rfl hne
  | cons c r =>
    have hc : isdigit c = true := hdig c (by simp)
    unfold atoi
    rw [List.dropWhile_cons_of_neg (by simp [isspace_eq_false_of_isdigit c hc]),
      takeSign_of_isdigit c r hc]
    have ht := (takeWhile_isdigit_append (c :: r) [] hdig (by simp)).1
    rw [List.append_nil] at ht
    simp only [ht, hval]
    simp

theorem atoi_showInt (e : Int) : atoi (showInt e) = e := by
  unfold showInt
  split
  · rename_i hneg
    unfold atoi
    rw [List.dropWhile_cons_of_neg (by decide)]
    have ht := (takeWhile_isdigit_append (showNat e.natAbs) []
      (isdigit_of_mem_showNat _) (by simp)).1
    rw [List.append_nil] at ht
    simp only [takeSign, ht, digitsVal_showNat, if_true]
    omega
  · rename_i hpos
    rw [atoi_showNat]
    omega

theorem roundHalfEven_near (x : ℚ) :
    (roundHalfEven x : ℚ) - x ≤ 1 / 2 ∧ x - (roundHalfEven x : ℚ) ≤ 1 / 2 := by
  have hf1 : ((⌊x⌋ : Int) : ℚ) ≤ x := Int.floor_le x
  have hf2 : x < ((⌊x⌋ : Int) : ℚ) + 1 := Int.lt_floor_add_one x
  unfold roundHalfEven
  simp only
  split_ifs <;> push_cast <;> constructor <;> linarith

theorem roundHalfEven_nonneg (x : ℚ) (hx : 0 ≤ x) : 0 ≤ roundHalfEven x := by
  have hf : 0 ≤ ⌊x⌋ := Int.floor_nonneg.mpr hx
  unfold roundHalfEven
  simp only
  split_ifs <;> omega

theorem atofMagnitude_fixed (a d1 d2 : Nat) (h1 : d1 < 10) (h2 : d2 < 10) :
    atofMagnitude (showNat a ++ ['.', digitChar d1, digitChar d2]) =
      ((a * 100 + d1 * 10 + d2 : Nat) : ℚ) / 100 := by
  have hi1 := isdigit_digitChar d1 h1
  have hi2 := isdigit_digitChar d2 h2
  have ht := takeWhile_isdigit_append (showNat a) ['.', digitChar d1, digitChar d2]
    (isdigit_of_mem_showNat a) (by
      intro c hc
      simp only [List.head?_cons, Option.some.injEq] at hc
      rw [← hc]
      decide)
  have hne := showNat_ne_nil a
  unfold atofMagnitude
  simp only [ht.1, ht.2]
  have hfp : List.takeWhile isdigit [digitChar d1, digitChar d2] = [digitChar d1, digitChar d2] := by
    simp [List.takeWhile, hi1, hi2]
  have hs4 : List.dropWhile isdigit [digitChar d1, digitChar d2] = [] := by
    simp [List.dropWhile, hi1, hi2]
  rw [hfp, hs4, if_neg (by simp [hne])]
  have hv : digitsVal (showNat a ++ [digitChar d1, digitChar d2]) = a * 100 + d1 * 10 + d2 := by
    have : showNat a ++ [digitChar d1, digitChar d2]
        = (showNat a ++ [digitChar d1]) ++ [digitChar d2] := by simp
    rw [this, digitsVal_append_singleton, digitsVal_append_singleton, digitsVal_showNat,
      digitVal_digitChar d1 h1, digitVal_digitChar d2 h2]
    ring
  rw [hv]
  simp [parseExponent]
  norm_num

theorem atof_showFixed2 (q : ℚ) : atof (showFixed2 q) = round2 q := by
  unfold showFixed2 round2
  simp only
  generalize hk : (roundHalfEven (|q| * 100)).toNat = k
  have hm := atofMagnitude_fixed (k / 100) (k / 10 % 10) (k % 10)
    (Nat.mod_lt _ (by norm_num)) (Nat.mod_lt _ (by norm_num))
  have hkk : k / 100 * 100 + k / 10 % 10 * 10 + k % 10 = k := by omega
  rw [hkk] at hm
  by_cases hq : q < 0
  · rw [if_pos hq, if_pos hq]
    unfold atof
    simp only [List.singleton_append, List.cons_append]
    rw [List.dropWhile_cons_of_neg (by decide)]
    simp only [takeSign, if_true, List.nil_append, hm]
  · rw [if_neg hq, if_neg hq, List.nil_append]
    have hne := showNat_ne_nil (k / 100)
    have hdig := isdigit_of_mem_showNat (k / 100)
    generalize showNat (k / 100) = s at hne hdig hm
    cases s with
    | nil => exact absurd rfl hne
    | cons c r =>
      have hc : isdigit c = true := hdig c (by simp)
      unfold atof
      rw [List.cons_append,
        List.dropWhile_cons_of_neg (by simp [isspace_eq_false_of_isdigit c hc]),
        takeSign_of_isdigit c _ hc]
      simp only [Bool.false_eq_true, if_false]
      rw [← List.cons_append]
      exact hm

/-! ## Lines of a stream -/

theorem takeWhile_dropWhile_line (l rest : List Char) (hl : '\n' ∉ l) :
    (l ++ '\n' :: rest).takeWhile (fun x => x != '\n') = l ∧
    (l ++ '\n' :: rest).dropWhile (fun x => x != '\n') = '\n' :: rest := by
  induction l with
  | nil => simp [List.takeWhile, List.dropWhile]
  | cons c cs ih =>
    have hc : (c != '\n') = true := by
      rw [bne_iff_ne]
      exact fun h => hl (by simp [h])
    have h := ih (fun h => hl (by simp [h]))
    rw [List.cons_append,
      List.takeWhile_cons_of_pos (p := fun x => x != '\n') hc,
      List.dropWhile_cons_of_pos (p := fun x => x != '\n') hc, h.1, h.2]
    exact ⟨rfl, rfl⟩

theorem getline_line (l rest : List Char) (hl : '\n' ∉ l) :
    getline (l ++ '\n' :: rest) = some (l, rest) := by
  have h := takeWhile_dropWhile_line l rest hl
  cases l with
  | nil => simp [getline, List.takeWhile, List.dropWhile]
  | cons c cs =>
    rw [List.cons_append] at h ⊢
    simp only [getline, h.1, h.2, List.tail_cons]

/-- The loop of `Output::load` on a stream of newline-terminated lines, each of
which parses: one estimate is appended per line, in line order. -/
theorem Output.loadLoop_lines (recs : List (List Char × Estimate))
    (estmns : List Estimate)
    (h : ∀ r ∈ recs, '\n' ∉ r.1 ∧ Output.parseLine r.1 = Except.ok r.2) :
    Output.loadLoop (recs.map (fun r => r.1 ++ ['\n'])).flatten estmns
      = Except.ok (estmns ++ recs.map Prod.snd) := by
  induction recs generalizing estmns with
  | nil =>
    rw [Output.loadLoop]
    simp [getline]
  | cons r rs ih =>
    have hr := h r (by simp)
    have hg : getline ((List.map (fun r => r.1 ++ ['\n']) (r :: rs)).flatten)
        = some (r.1, (List.map (fun r => r.1 ++ ['\n']) rs).flatten) := by
      simp only [List.map_cons, List.flatten_cons, List.append_assoc, List.singleton_append]
      exact getline_line r.1 _ hr.1
    rw [Output.loadLoop]
    split
    · rename_i hnone
      rw [hg] at hnone
      exact Option.noConfusion hnone
    · rename_i s rest hsome
      rw [hg] at hsome
      simp only [Option.some.injEq, Prod.mk.injEq] at hsome
      rw [← hsome.1, ← hsome.2, hr.2]
      simp only
      rw [ih (estmns ++ [r.2]) (fun r2 hr2 => h r2 (by simp [hr2]))]
      simp

/-- The loop of `Output::save` appends the lines of the remaining estimates. -/
theorem Output.saveLoop_eq (self : Output) (k i : Nat) (out : List Char)
    (hk : i + k = self.m_estmns.length) :
    Output.saveLoop self i out
      = out ++ ((List.range' i k).map (Output.saveLine self)).flatten := by
  induction k generalizing i out with
  | zero =>
    rw [Output.saveLoop, if_neg (by omega)]
    simp
  | succ k ih =>
    rw [Output.saveLoop, if_pos (by omega), ih (i + 1) _ (by omega)]
    simp [List.range'_succ]

/-! ## The characters and the length of a written line -/

theorem mem_showInt (e : Int) (c : Char) (hc : c ∈ showInt e) :
    isdigit c = true ∨ c = '-' := by
  unfold showInt at hc
  split at hc
  · rw [List.mem_cons] at hc
    rcases hc with hc | hc
    · exact Or.inr hc
    · exact Or.inl (isdigit_of_mem_showNat _ c hc)
  · exact Or.inl (isdigit_of_mem_showNat _ c hc)

theorem mem_showFixed2 (q : ℚ) (c : Char) (hc : c ∈ showFixed2 q) :
    isdigit c = true ∨ c = '-' ∨ c = '.' := by
  unfold showFixed2 at hc
  simp only [List.mem_append, List.mem_cons, List.mem_singleton, List.not_mem_nil,
    or_false] at hc
  rcases hc with (hc | hc) | hc | hc | hc
  · split at hc
    · simp only [List.mem_singleton] at hc
      exact Or.inr (Or.inl hc)
    · simp at hc
  · exact Or.inl (isdigit_of_mem_showNat _ c hc)
  · exact Or.inr (Or.inr hc)
  · rw [hc]
    exact Or.inl (isdigit_digitChar _ (Nat.mod_lt _ (by norm_num)))
  · rw [hc]
    exact Or.inl (isdigit_digitChar _ (Nat.mod_lt _ (by norm_num)))

theorem not_mem_showInt (e : Int) (c : Char) (h1 : isdigit c = false) (h2 : c ≠ '-') :
    c ∉ showInt e := by
  intro hc
  rcases mem_showInt e c hc with h | h
  · rw [h1] at h
    exact Bool.noConfusion h
  · exact h2 h

theorem not_mem_showFixed2 (q : ℚ) (c : Char) (h1 : isdigit c = false) (h2 : c ≠ '-')
    (h3 : c ≠ '.') : c ∉ showFixed2 q := by
  intro hc
  rcases mem_showFixed2 q c hc with h | h | h
  · rw [h1] at h
    exact Bool.noConfusion h
  · exact h2 h
  · exact h3 h

theorem showInt_length_le (e : Int) (h1 : -(2 ^ 31) ≤ e) (h2 : e < 2 ^ 31) :
    (showInt e).length ≤ 11 := by
  unfold showInt
  split
  · have := showNat_length_le 9 e.natAbs (by omega)
    rw [List.length_cons]
    omega
  · have := showNat_length_le 9 e.toNat (by omega)
    omega

theorem showFixed2_length_le (q : ℚ) (h : |q| < 10 ^ 309) :
    (showFixed2 q).length ≤ 400 := by
  have hn := roundHalfEven_near (|q| * 100)
  have h0 := roundHalfEven_nonneg (|q| * 100) (mul_nonneg (abs_nonneg q) (by norm_num))
  unfold showFixed2
  simp only
  generalize roundHalfEven (|q| * 100) = r at hn h0
  have hr : ((r.toNat : Nat) : ℚ) = (r : ℚ) := by
    exact_mod_cast congrArg (fun z : Int => (z : ℚ)) (Int.toNat_of_nonneg h0)
  have hB : ((10 ^ 309 : Nat) : ℚ) = 10 ^ 309 := by
    rw [Nat.cast_pow, Nat.cast_ofNat]
  rw [← hB] at h
  have hpos : 0 < 10 ^ 309 := pow_pos (by norm_num : 0 < 10) 309
  have hsucc : 10 ^ (309 + 1) = 10 ^ 309 * 10 := pow_succ 10 309
  generalize 10 ^ 309 = B at h hpos hsucc
  have hlt : ((r.toNat : Nat) : ℚ) < ((B * 100 + 1 : Nat) : ℚ) := by
    rw [hr]
    push_cast
    linarith [hn.1]
  have hlt2 : r.toNat < B * 100 + 1 := by exact_mod_cast hlt
  have hdiv : r.toNat / 100 < 10 ^ (309 + 1) := by
    rw [hsucc]
    omega
  have hl := showNat_length_le 309 (r.toNat / 100) hdiv
  simp only [List.length_append, List.length_cons, List.length_nil]
  split <;> simp <;> omega

/-! ## `Output::save` and the round trip through `Output::load` -/

theorem Output.saveLine_eq (o : Output) (i : Nat) :
    Output.saveLine o i = recordText i (o.m_estmns.getD i default) ++ ['\n'] := by
  simp [Output.saveLine, recordText]

theorem not_newline_mem_recordText (i : Nat) (e : Estimate) : '\n' ∉ recordText i e := by
  unfold recordText
  simp only [List.mem_append, List.mem_cons, not_or]
  exact ⟨not_mem_showInt _ _ (by decide) (by decide), by decide,
    not_mem_showInt _ _ (by decide) (by decide), by decide,
    not_mem_showFixed2 _ _ (by decide) (by decide) (by decide)⟩

/-- The text written by the loop of `Output::save`: the records of the
estimates in order, each followed by a newline. -/
theorem Output.saveLoop_text (o : Output) :
    Output.saveLoop o 0 [] =
      ((List.range o.m_estmns.length).map
        (fun i => recordText i (o.m_estmns.getD i default) ++ ['\n'])).flatten := by
  rw [Output.saveLoop_eq o o.m_estmns.length 0 [] (by omega), List.nil_append,
    List.range_eq_range']
  congr 1
  apply List.map_congr_left
  intro i _
  exact Output.saveLine_eq o i

theorem count_newline_lines (ls : List (List Char)) (h : ∀ l ∈ ls, '\n' ∉ l) :
    ((ls.map (fun l => l ++ ['\n'])).flatten).count '\n' = ls.length := by
  induction ls with
  | nil => simp
  | cons l ls ih =>
    have h1 : l.count '\n' = 0 := List.count_eq_zero.mpr (h l (by simp))
    have h2 := ih (fun l2 hl2 => h l2 (by simp [hl2]))
    simp only [List.map_cons, List.flatten_cons, List.count_append, h1, h2, List.length_cons]
    simp
    omega

theorem showFixed2_shape (q : ℚ) :
    ∃ ip d1 d2, showFixed2 q = (if q < 0 then ['-'] else []) ++ ip ++ ['.', d1, d2] ∧
      ip ≠ [] ∧ (∀ c ∈ ip, isdigit c = true) ∧ isdigit d1 = true ∧ isdigit d2 = true :=
  ⟨_, _, _, rfl, showNat_ne_nil _, isdigit_of_mem_showNat _,
    isdigit_digitChar _ (Nat.mod_lt _ (by norm_num)),
    isdigit_digitChar _ (Nat.mod_lt _ (by norm_num))⟩

theorem recordText_length (i : Nat) (e : Estimate) (hi : i < 2 ^ 31)
    (h1 : -(2 ^ 31) ≤ e.edge) (h2 : e.edge < 2 ^ 31) (h3 : |e.confidence| < 10 ^ 309) :
    (recordText i e).length < 2 ^ 64 := by
  have ha := showInt_length_le (i : Int) (by omega) (by omega)
  have hb := showInt_length_le e.edge h1 h2
  have hc := showFixed2_length_le e.confidence h3
  unfold recordText
  simp only [List.length_append, List.length_cons]
  omega

theorem Output.parseLine_recordText (i : Nat) (e : Estimate)
    (hlen : (recordText i e).length < 2 ^ 64) :
    Output.parseLine (recordText i e) = Except.ok ⟨e.edge, round2 e.confidence⟩ := by
  have hf := fields_of_line (showInt (i : Int)) (showInt e.edge) (showFixed2 e.confidence)
    (not_mem_showInt _ _ (by decide) (by decide))
    (not_mem_showInt _ _ (by decide) (by decide)) hlen
  simp only at hf
  unfold Output.parseLine recordText
  simp only [hf.1, hf.2, atoi_showInt, atof_showFixed2]

/-- Reading back the text written for a representable Output: same edges,
confidences rounded to the nearest hundredth. -/
theorem Output.load_saveLoop (o self : Output) (h : o.representable) :
    Output.load self (some (Output.saveLoop o 0 [])) =
      Except.ok ⟨o.m_estmns.map (fun e => ⟨e.edge, round2 e.confidence⟩)⟩ := by
  obtain ⟨hm, hall⟩ := h
  have hrecs : ∀ r ∈ (List.range o.m_estmns.length).map
      (fun i => (recordText i (o.m_estmns.getD i default),
        (⟨(o.m_estmns.getD i default).edge,
          round2 (o.m_estmns.getD i default).confidence⟩ : Estimate))),
      '\n' ∉ r.1 ∧ Output.parseLine r.1 = Except.ok r.2 := by
    intro r hr
    rw [List.mem_map] at hr
    obtain ⟨i, hi, rfl⟩ := hr
    rw [List.mem_range] at hi
    have hmem : o.m_estmns.getD i default ∈ o.m_estmns := by
      rw [List.getD_eq_getElem _ _ hi]
      exact List.getElem_mem hi
    obtain ⟨h1, h2, h3⟩ := hall _ hmem
    exact ⟨not_newline_mem_recordText _ _,
      Output.parseLine_recordText i _ (recordText_length i _ (by omega) h1 h2 h3)⟩
  have hloop := Output.loadLoop_lines _ [] hrecs
  simp only [List.map_map, List.nil_append] at hloop
  unfold Output.load
  simp only
  rw [Output.saveLoop_text]
  have hfun : ((fun r : List Char × Estimate => r.1 ++ ['\n']) ∘
      fun i => (recordText i (o.m_estmns.getD i default),
        (⟨(o.m_estmns.getD i default).edge,
          round2 (o.m_estmns.getD i default).confidence⟩ : Estimate)))
      = fun i => recordText i (o.m_estmns.getD i default) ++ ['\n'] := rfl
  rw [hfun] at hloop
  rw [hloop]
  simp only
  congr 2
  apply List.ext_getElem
  · simp
  · intro n h1 h2
    simp only [List.length_map, List.length_range] at h1
    simp only [List.getElem_map, List.getElem_range, Function.comp]
    rw [List.getD_eq_getElem _ _ h1]

theorem round2_near (q : ℚ) : |round2 q - q| ≤ 1 / 200 ∧ ∃ k : Int, round2 q = (k : ℚ) / 100 := by
  have hn := roundHalfEven_near (|q| * 100)
  have h0 := roundHalfEven_nonneg (|q| * 100) (mul_nonneg (abs_nonneg q) (by norm_num))
  unfold round2
  simp only
  generalize roundHalfEven (|q| * 100) = r at hn h0
  have hr : ((r.toNat : Nat) : ℚ) = (r : ℚ) := by
    exact_mod_cast congrArg (fun z : Int => (z : ℚ)) (Int.toNat_of_nonneg h0)
  rw [hr]
  by_cases hq : q < 0
  · rw [if_pos hq]
    have ha : |q| = -q := abs_of_neg hq
    rw [ha] at hn
    refine ⟨?_, -r, by push_cast; ring⟩
    rw [abs_le]
    constructor <;> linarith [hn.1, hn.2]
  · rw [if_neg hq]
    have ha : |q| = q := abs_of_nonneg (not_lt.mp hq)
    rw [ha] at hn
    refine ⟨?_, r, rfl⟩
    rw [abs_le]
    constructor <;> linarith [hn.1, hn.2]

theorem confidence_lt_of_abs_le_one (q : ℚ) (h : |q| ≤ 1) : |q| < 10 ^ 309 :=
  lt_of_le_of_lt h (one_lt_pow₀ (by norm_num) (by norm_num))

/-- Claim C9: `Output::save` writes one line per estimate, in estimate order:
the text is the concatenation, over the indices `i` below the length `m`, of the
record of estimate `i` (decimal index, delimiter, decimal edge, delimiter,
confidence in fixed notation) and a newline; no record contains a newline, so
the text has exactly `m` lines; the decimal texts read back as the numbers; and
a confidence is written as an optional sign, a non-empty run of digits, a `.`
and exactly two digits. -/
theorem Output.save_writes_records (o : Output) (hm : o.m_estmns.length < 2 ^ 31) :
    Output.save o true = Except.ok
      ((List.range o.m_estmns.length).map
        (fun i => recordText i (o.m_estmns.getD i default) ++ ['\n'])).flatten ∧
    (∀ i e, '\n' ∉ recordText i e) ∧
    (((List.range o.m_estmns.length).map
        (fun i => recordText i (o.m_estmns.getD i default) ++ ['\n'])).flatten).count '\n'
      = o.m_estmns.length ∧
    (∀ i e, recordText i e =
      showInt (i : Int) ++ [IO_DELIM] ++ showInt e.edge ++ [IO_DELIM]
        ++ showFixed2 e.confidence) ∧
    (∀ n : Int, atoi (showInt n) = n) ∧
    (∀ q : ℚ, ∃ ip d1 d2,
      showFixed2 q = (if q < 0 then ['-'] else []) ++ ip ++ ['.', d1, d2] ∧
      ip ≠ [] ∧ (∀ c ∈ ip, isdigit c = true) ∧ isdigit d1 = true ∧ isdigit d2 = true) := by
  refine ⟨?_, not_newline_mem_recordText, ?_, ?_, atoi_showInt, showFixed2_shape⟩
  · unfold Output.save
    rw [if_pos rfl, Output.saveLoop_text]
  · have h := count_newline_lines
      ((List.range o.m_estmns.length).map (fun i => recordText i (o.m_estmns.getD i default)))
      (by
        intro l hl
        rw [List.mem_map] at hl
        obtain ⟨i, _, rfl⟩ := hl
        exact not_newline_mem_recordText _ _)
    rw [List.map_map, List.length_map, List.length_range] at h
    exact h
  · intro i e
    simp [recordText]

/-- Claim C3, amended: for a representable Output `o`, `Output::load` applied to
the text written by `Output::save(o)` yields an Output with the same number of
estimates, the same edge at every index, and at every index the confidence of
`o` rounded to the nearest hundredth (within `0.005` of it, a multiple of
`0.01`). -/
theorem Output.load_save_rounds (o self : Output) (h : o.representable) :
    ∃ text loaded, Output.save o true = Except.ok text ∧
      Output.load self (some text) = Except.ok loaded ∧
      loaded.m_estmns = o.m_estmns.map (fun e => ⟨e.edge, round2 e.confidence⟩) ∧
      loaded.estimates.length = o.estimates.length ∧
      (∀ i, i < o.estimates.length →
        loaded.edge i = o.edge i ∧ loaded.confidence i = round2 (o.confidence i)) ∧
      (∀ q : ℚ, |round2 q - q| ≤ 1 / 200 ∧ ∃ k : Int, round2 q = (k : ℚ) / 100) := by
  refine ⟨Output.saveLoop o 0 [], ⟨o.m_estmns.map (fun e => ⟨e.edge, round2 e.confidence⟩)⟩,
    ?_, Output.load_saveLoop o self h, rfl, ?_, ?_, round2_near⟩
  · unfold Output.save
    rw [if_pos rfl]
  · simp [Output.estimates]
  · intro i hi
    simp only [Output.estimates] at hi
    simp only [Output.edge, Output.confidence]
    rw [List.getD_eq_getElem _ _ (by simpa using hi), List.getD_eq_getElem _ _ hi]
    simp

theorem showNat_digit (n : Nat) (h : n < 10) : showNat n = [digitChar n] := by
  rw [showNat, if_pos h]

theorem roundHalfEven_intCast (k : Int) : roundHalfEven (k : ℚ) = k := by
  unfold roundHalfEven
  simp

theorem roundHalfEven_example : roundHalfEven (|(1023 / 1024 : ℚ)| * 100) = 100 := by
  have ha : |(1023 / 1024 : ℚ)| * 100 = 25575 / 256 := by
    rw [abs_of_nonneg (by norm_num)]
    norm_num
  have hf : ⌊(25575 / 256 : ℚ)⌋ = 99 := by
    rw [Int.floor_eq_iff]
    norm_num
  rw [ha]
  unfold roundHalfEven
  simp only [hf]
  norm_num

/-- Claim C9 on an Output of two estimates: the two lines `0|3|0.50` and
`1|-1|0.00`. -/
theorem Output.save_writes_records_witness :
    Output.save ⟨[⟨3, 1 / 2⟩, ⟨-1, 0⟩]⟩ true = Except.ok
      ['0', '|', '3', '|', '0', '.', '5', '0', '\n',
       '1', '|', '-', '1', '|', '0', '.', '0', '0', '\n'] := by
  have h := (Output.save_writes_records ⟨[⟨3, 1 / 2⟩, ⟨-1, 0⟩]⟩ (by simp)).1
  rw [h]
  have h50 : roundHalfEven (|(1 / 2 : ℚ)| * 100) = 50 := by
    have ha : |(1 / 2 : ℚ)| * 100 = ((50 : Int) : ℚ) := by
      rw [abs_of_nonneg (by norm_num)]
      norm_num
    rw [ha, roundHalfEven_intCast]
  have h0 : roundHalfEven (|(0 : ℚ)| * 100) = 0 := by
    have ha : |(0 : ℚ)| * 100 = ((0 : Int) : ℚ) := by norm_num
    rw [ha, roundHalfEven_intCast]
  simp only [List.length_cons, List.length_nil, List.range_succ, List.range_zero,
    List.nil_append, List.cons_append, List.map_cons, List.map_nil, List.getD_cons_zero,
    List.getD_cons_succ, Nat.zero_add, recordText, showFixed2, h50, h0]
  simp [showInt, showNat_digit, IO_DELIM]
  decide

/-- Claim C3 as stated fails: the confidence `1023/1024 = 0.9990234375` is
written as `1.00` and read back as `1`, while its truncation to two decimals is
`0.99`. -/
theorem Output.load_save_not_truncated :
    Output.save ⟨[⟨3, 1023 / 1024⟩]⟩ true
      = Except.ok ['0', '|', '3', '|', '1', '.', '0', '0', '\n'] ∧
    Output.load ⟨[]⟩ (some ['0', '|', '3', '|', '1', '.', '0', '0', '\n'])
      = Except.ok ⟨[⟨3, 1⟩]⟩ ∧
    truncate2 (1023 / 1024) = 99 / 100 ∧
    (1 : ℚ) ≠ truncate2 (1023 / 1024) := by
  have hrep : Output.representable ⟨[⟨3, 1023 / 1024⟩]⟩ := by
    refine ⟨by simp, ?_⟩
    intro e he
    simp only [List.mem_singleton] at he
    rw [he]
    refine ⟨by norm_num, by norm_num, confidence_lt_of_abs_le_one _ ?_⟩
    rw [abs_of_nonneg (by norm_num)]
    norm_num
  have hsave : Output.saveLoop ⟨[⟨3, 1023 / 1024⟩]⟩ 0 []
      = ['0', '|', '3', '|', '1', '.', '0', '0', '\n'] := by
    rw [Output.saveLoop_text]
    have hnn : ¬ ((1023 / 1024 : ℚ) < 0) := by norm_num
    simp only [List.length_singleton, List.range_succ, List.range_zero, List.nil_append,
      List.map_cons, List.map_nil, List.getD_cons_zero, recordText, showFixed2,
      roundHalfEven_example, if_neg hnn]
    simp [showInt, showNat_digit, IO_DELIM]
    decide
  have hload := Output.load_saveLoop ⟨[⟨3, 1023 / 1024⟩]⟩ ⟨[]⟩ hrep
  rw [hsave] at hload
  have hr : round2 (1023 / 1024) = 1 := by
    unfold round2
    simp only [roundHalfEven_example]
    norm_num [Int.toNat]
  have ht : truncate2 (1023 / 1024) = 99 / 100 := by
    have hf : ⌊(1023 / 1024 : ℚ) * 100⌋ = 99 := by
      rw [Int.floor_eq_iff]
      norm_num
    unfold truncate2
    rw [if_pos (by norm_num), hf]
    norm_num
  refine ⟨?_, ?_, ht, ?_⟩
  · unfold Output.save
    rw [if_pos rfl, hsave]
  · rw [hload]
    simp [hr]
  · rw [ht]
    norm_num

/-- Claim C3, amended, on a concrete Output: confidence `0.9990234375` and the
sentinel edge `-1` with confidence `0`. -/
theorem Output.load_save_rounds_witness :
    ∃ text loaded, Output.save ⟨[⟨3, 1023 / 1024⟩, ⟨-1, 0⟩]⟩ true = Except.ok text ∧
      Output.load ⟨[]⟩ (some text) = Except.ok loaded ∧
      loaded.m_estmns = [⟨3, round2 (1023 / 1024)⟩, ⟨-1, round2 0⟩] := by
  have hrep : Output.representable ⟨[⟨3, 1023 / 1024⟩, ⟨-1, 0⟩]⟩ := by
    refine ⟨by simp, ?_⟩
    intro e he
    simp only [List.mem_cons, List.mem_singleton, List.not_mem_nil, or_false] at he
    rcases he with he | he <;> rw [he] <;>
      refine ⟨by norm_num, by norm_num, confidence_lt_of_abs_le_one _ ?_⟩
    · rw [abs_of_nonneg (by norm_num)]
      norm_num
    · norm_num
  obtain ⟨text, loaded, h1, h2, h3, _⟩ :=
    Output.load_save_rounds ⟨[⟨3, 1023 / 1024⟩, ⟨-1, 0⟩]⟩ ⟨[]⟩ hrep
  exact ⟨text, loaded, h1, h2, h3⟩

/-! ## `Input::loadUTM` -/

theorem Input.parseLineUTM_traceLine (id x y : List Char) (hid : IO_DELIM ∉ id)
    (hx : IO_DELIM ∉ x) (hlen : (traceLine id x y).length < 2 ^ 64) :
    Input.parseLineUTM (traceLine id x y) = Except.ok ⟨atof x, atof y⟩ := by
  have hf := fields_of_line id x y hid hx hlen
  simp only at hf
  unfold Input.parseLineUTM traceLine
  simp only [hf.1, hf.2]

theorem getline_last (l : List Char) (hne : l ≠ []) (hl : '\n' ∉ l) :
    getline l = some (l, []) := by
  have ht : l.takeWhile (fun x => x != '\n') = l := by
    rw [List.takeWhile_eq_self_iff]
    intro c hc
    rw [bne_iff_ne]
    exact fun h => hl (h ▸ hc)
  have hd : l.dropWhile (fun x => x != '\n') = [] := by
    rw [List.dropWhile_eq_nil_iff]
    intro c hc
    rw [bne_iff_ne]
    exact fun h => hl (h ▸ hc)
  cases l with
  | nil => exact absurd rfl hne
  | cons c cs => simp only [getline, ht, hd, List.tail_nil]

/-- The loop of `Input::loadUTM` on newline-terminated lines that parse,
followed by the rest of the stream: one observation is appended per line, in
line order, and the loop goes on with the rest. -/
theorem Input.loadUTMLoop_lines (recs : List (List Char × UTMNode)) (rest : List Char)
    (nodes : List UTMNode)
    (h : ∀ r ∈ recs, '\n' ∉ r.1 ∧ Input.parseLineUTM r.1 = Except.ok r.2) :
    Input.loadUTMLoop ((recs.map (fun r => r.1 ++ ['\n'])).flatten ++ rest) nodes
      = Input.loadUTMLoop rest (nodes ++ recs.map Prod.snd) := by
  induction recs generalizing nodes with
  | nil => simp
  | cons r rs ih =>
    have hr := h r (by simp)
    have hg : getline ((List.map (fun r => r.1 ++ ['\n']) (r :: rs)).flatten ++ rest)
        = some (r.1, (List.map (fun r => r.1 ++ ['\n']) rs).flatten ++ rest) := by
      simp only [List.map_cons, List.flatten_cons, List.append_assoc, List.singleton_append]
      exact getline_line r.1 _ hr.1
    rw [Input.loadUTMLoop]
    split
    · rename_i hnone
      rw [hg] at hnone
      exact Option.noConfusion hnone
    · rename_i s rest2 hsome
      rw [hg] at hsome
      simp only [Option.some.injEq, Prod.mk.injEq] at hsome
      rw [← hsome.1, ← hsome.2, hr.2]
      simp only
      rw [ih (nodes ++ [r.2]) (fun r2 hr2 => h r2 (by simp [hr2]))]
      simp

theorem Input.loadUTMLoop_nil (nodes : List UTMNode) :
    Input.loadUTMLoop [] nodes = Except.ok nodes := by
  rw [Input.loadUTMLoop]
  simp [getline]

theorem Input.loadUTMLoop_last (l : List Char) (node : UTMNode) (nodes : List UTMNode)
    (hne : l ≠ []) (hl : '\n' ∉ l) (hp : Input.parseLineUTM l = Except.ok node) :
    Input.loadUTMLoop l nodes = Except.ok (nodes ++ [node]) := by
  have hg := getline_last l hne hl
  rw [Input.loadUTMLoop]
  split
  · rename_i hnone
    rw [hg] at hnone
    exact Option.noConfusion hnone
  · rename_i s rest2 hsome
    rw [hg] at hsome
    simp only [Option.some.injEq, Prod.mk.injEq] at hsome
    rw [← hsome.1, ← hsome.2, hp]
    simp only
    exact Input.loadUTMLoop_nil _

/-- Claim C10: `Input::loadUTM` appends, for every line `<id>|<x>|<y>` of the
file (no delimiter in `id` and `x`), exactly one observation whose coordinates
are `atof` of the second and of the third field, in line order, whether or not
the last line ends with a newline; the observation does not depend on the `id`
field. -/
theorem Input.loadUTM_trace_lines (self : Input)
    (recs : List (List Char × List Char × List Char))
    (h : ∀ r ∈ recs, IO_DELIM ∉ r.1 ∧ IO_DELIM ∉ r.2.1 ∧
      '\n' ∉ traceLine r.1 r.2.1 r.2.2 ∧ (traceLine r.1 r.2.1 r.2.2).length < 2 ^ 64) :
    Input.loadUTM self
        (some (recs.map (fun r => traceLine r.1 r.2.1 r.2.2 ++ ['\n'])).flatten)
      = Except.ok ⟨self.m_nodes ++ recs.map (fun r => ⟨atof r.2.1, atof r.2.2⟩)⟩ ∧
    Input.loadUTM self
        (some (recs.map (fun r => traceLine r.1 r.2.1 r.2.2 ++ ['\n'])).flatten.dropLast)
      = Except.ok ⟨self.m_nodes ++ recs.map (fun r => ⟨atof r.2.1, atof r.2.2⟩)⟩ ∧
    (∀ r ∈ recs, ∀ id2 : List Char, IO_DELIM ∉ id2 →
      (traceLine id2 r.2.1 r.2.2).length < 2 ^ 64 →
      Input.parseLineUTM (traceLine id2 r.2.1 r.2.2)
        = Input.parseLineUTM (traceLine r.1 r.2.1 r.2.2)) := by
  have key : ∀ rs : List (List Char × List Char × List Char),
      (∀ r ∈ rs, IO_DELIM ∉ r.1 ∧ IO_DELIM ∉ r.2.1 ∧
        '\n' ∉ traceLine r.1 r.2.1 r.2.2 ∧ (traceLine r.1 r.2.1 r.2.2).length < 2 ^ 64) →
      ∀ (rest : List Char) (nodes : List UTMNode),
      Input.loadUTMLoop
          ((rs.map (fun r => traceLine r.1 r.2.1 r.2.2 ++ ['\n'])).flatten ++ rest) nodes
        = Input.loadUTMLoop rest
            (nodes ++ rs.map (fun r => ⟨atof r.2.1, atof r.2.2⟩)) := by
    intro rs hrs rest nodes
    have hl := Input.loadUTMLoop_lines
      (rs.map (fun r => (traceLine r.1 r.2.1 r.2.2, (⟨atof r.2.1, atof r.2.2⟩ : UTMNode))))
      rest nodes (by
        intro p hp
        rw [List.mem_map] at hp
        obtain ⟨r, hr, rfl⟩ := hp
        obtain ⟨h1, h2, h3, h4⟩ := hrs r hr
        exact ⟨h3, Input.parseLineUTM_traceLine r.1 r.2.1 r.2.2 h1 h2 h4⟩)
    simp only [List.map_map] at hl
    exact hl
  refine ⟨?_, ?_, ?_⟩
  · unfold Input.loadUTM
    simp only
    have hk := key recs h [] self.m_nodes
    rw [List.append_nil] at hk
    rw [hk, Input.loadUTMLoop_nil]
  · unfold Input.loadUTM
    simp only
    rcases List.eq_nil_or_concat recs with hnil | ⟨rs, r, hcat⟩
    · subst hnil
      simp [Input.loadUTMLoop_nil]
    · rw [List.concat_eq_append] at hcat
      subst hcat
      have hrs : ∀ r2 ∈ rs, IO_DELIM ∉ r2.1 ∧ IO_DELIM ∉ r2.2.1 ∧
          '\n' ∉ traceLine r2.1 r2.2.1 r2.2.2 ∧
          (traceLine r2.1 r2.2.1 r2.2.2).length < 2 ^ 64 :=
        fun r2 hr2 => h r2 (by simp [hr2])
      obtain ⟨h1, h2, h3, h4⟩ := h r (by simp)
      have hcontent : (List.map (fun r => traceLine r.1 r.2.1 r.2.2 ++ ['\n'])
          (rs ++ [r])).flatten.dropLast
          = (rs.map (fun r => traceLine r.1 r.2.1 r.2.2 ++ ['\n'])).flatten
            ++ traceLine r.1 r.2.1 r.2.2 := by
        rw [List.map_append, List.flatten_append]
        simp only [List.map_cons, List.map_nil, List.flatten_cons, List.flatten_nil,
          List.append_nil]
        rw [← List.append_assoc, List.dropLast_concat]
      have hne : traceLine r.1 r.2.1 r.2.2 ≠ [] := by
        unfold traceLine
        simp
      rw [hcontent, key rs hrs,
        Input.loadUTMLoop_last _ ⟨atof r.2.1, atof r.2.2⟩ _ hne h3
          (Input.parseLineUTM_traceLine r.1 r.2.1 r.2.2 h1 h2 h4)]
      simp
  · intro r hr id2 hid2 hlen2
    obtain ⟨h1, h2, h3, h4⟩ := h r hr
    rw [Input.parseLineUTM_traceLine id2 r.2.1 r.2.2 hid2 h2 hlen2,
      Input.parseLineUTM_traceLine r.1 r.2.1 r.2.2 h1 h2 h4]

/-- Claim C10 on a file of two lines that differ only in the id field: both
give the observation `(12.5, -3)`. -/
theorem Input.loadUTM_trace_lines_witness :
    Input.loadUTM ⟨[]⟩
        (some ("7|12.5|-3".toList ++ ['\n'] ++ ("abc|12.5|-3".toList ++ ['\n'])))
      = Except.ok ⟨[⟨atof "12.5".toList, atof "-3".toList⟩,
          ⟨atof "12.5".toList, atof "-3".toList⟩]⟩ ∧
    atof "12.5".toList = 25 / 2 ∧ atof "-3".toList = -3 := by
  have h := (Input.loadUTM_trace_lines ⟨[]⟩
    [("7".toList, "12.5".toList, "-3".toList), ("abc".toList, "12.5".toList, "-3".toList)]
    (by
      intro r hr
      simp only [List.mem_cons, List.mem_singleton, List.not_mem_nil, or_false] at hr
      rcases hr with hr | hr <;> rw [hr] <;> simp [traceLine, IO_DELIM])).1
  refine ⟨?_, ?_, ?_⟩
  · simpa [traceLine, IO_DELIM] using h
  · simp [atof, atofMagnitude, takeSign, isspace, isdigit, digitsVal, digitVal, parseExponent,
      List.takeWhile, List.dropWhile]
    norm_num
  · simp [atof, atofMagnitude, takeSign, isspace, isdigit, digitsVal, digitVal, parseExponent,
      List.takeWhile, List.dropWhile]

/-! ## Constants of the matcher -/

/-- Claim C12: the tunable constants have the documented values, and
`MAX_CONSIDERED_AREA = 150 * 150 = 22500` is the `maxError²` of a call of
`match_frechet` that does not give it. -/
theorem matcher_constants :
    NN_NUMBER_GLOBAL = 50 ∧ MAX_ERROR_GLOBAL = 200 ∧
    MAX_CONSIDERED_AREA = 150 * 150 ∧ MAX_CONSIDERED_AREA = 22500 ∧
    NUM_PARTS = 10 ∧ INITIAL_ERROR = 100 ∧ BUCKETS = 100000 ∧
    (∀ (search : Search) (graph : RoadGraph) (index : SpatialIndex) (input : Input),
      match_frechet_default search graph index input
        = match_frechet search graph index input 22500) := by
  have h : MAX_CONSIDERED_AREA = 22500 := by
    unfold MAX_CONSIDERED_AREA
    norm_num
  refine ⟨rfl, rfl, ?_, h, rfl, rfl, rfl, ?_⟩
  · rw [h]
    norm_num
  · intro search graph index input
    unfold match_frechet_default
    rw [h]

/-! ## The hash of `geom_id` -/

/-- Bitwise and of a multiple of `2 ^ 32` with a value of `[0, 2 ^ 32)` is
zero. -/
theorem land_eq_zero_of_low (x g : Int) (hx : x % 2 ^ 32 = 0) (hg0 : 0 ≤ g)
    (hg : g < 2 ^ 32) : Int.land x g = 0 := by
  obtain ⟨n, rfl⟩ := Int.eq_ofNat_of_zero_le hg0
  have hn : n < 2 ^ 32 := by omega
  have hhigh : ∀ i, 32 ≤ i → n.testBit i = false := by
    intro i hi
    apply Nat.testBit_eq_false_of_lt
    exact lt_of_lt_of_le hn (Nat.pow_le_pow_right (by norm_num) hi)
  cases x with
  | ofNat m =>
    show ((m &&& n : Nat) : Int) = 0
    have hm : m % 2 ^ 32 = 0 := by
      have : ((m : Nat) : Int) % 2 ^ 32 = 0 := hx
      omega
    have h0 : m &&& n = 0 := by
      apply Nat.eq_of_testBit_eq
      intro i
      rw [Nat.testBit_and, Nat.zero_testBit]
      by_cases hi : i < 32
      · have h1 := Nat.testBit_mod_two_pow m 32 i
        rw [hm, Nat.zero_testBit] at h1
        simp only [hi, decide_True, Bool.true_and] at h1
        rw [← h1]
        rfl
      · rw [hhigh i (by omega)]
        simp
    rw [h0]
    rfl
  | negSucc m =>
    show ((Nat.ldiff n m : Nat) : Int) = 0
    have hm : m % 2 ^ 32 = 2 ^ 32 - 1 := by
      have : (Int.negSucc m) % 2 ^ 32 = 0 := hx
      rw [Int.negSucc_eq] at this
      omega
    have h0 : Nat.ldiff n m = 0 := by
      apply Nat.eq_of_testBit_eq
      intro i
      rw [Nat.testBit_ldiff, Nat.zero_testBit]
      by_cases hi : i < 32
      · have h1 := Nat.testBit_mod_two_pow m 32 i
        rw [hm, Nat.testBit_two_pow_sub_one] at h1
        simp only [hi, decide_True, Bool.true_and] at h1
        rw [← h1]
        simp
      · rw [hhigh i (by omega)]
        simp
    rw [h0]
    rfl

/-- Claim C13: the hash of a `geom_id` is `(int64(eid) << 32) & gid`, and it is
`0` for every `geom_id` with `gid >= 0`, whatever its `eid`; equal identifiers
have equal hashes. -/
theorem geom_id.hash_eq_zero (x : geom_id) (hg0 : 0 ≤ x.gid) (hg : x.gid < 2 ^ 31) :
    geom_id.hash x = toSizeT (Int.land (toInt64 (x.eid * 2 ^ 32)) x.gid) ∧
    geom_id.hash x = 0 ∧
    (∀ y : geom_id, geom_id.eq x y = true → geom_id.hash x = geom_id.hash y) := by
  have h0 : geom_id.hash x = 0 := by
    unfold geom_id.hash
    rw [land_eq_zero_of_low _ _ (by unfold toInt64; omega) hg0 (by omega)]
    rfl
  refine ⟨rfl, h0, ?_⟩
  intro y hy
  rw [geom_id.eq_iff] at hy
  have : x = y := by
    cases x
    cases y
    simp only [geom_id.mk.injEq]
    exact hy
  rw [this]

/-- Claim C13 on two identifiers: node `7` and the interior vertex `7` of edge
`12` both hash to `0`. -/
theorem geom_id.hash_eq_zero_witness :
    geom_id.hash ⟨-1, 7⟩ = 0 ∧ geom_id.hash ⟨12, 7⟩ = 0 :=
  ⟨(geom_id.hash_eq_zero ⟨-1, 7⟩ (by decide) (by decide)).2.1,
   (geom_id.hash_eq_zero ⟨12, 7⟩ (by decide) (by decide)).2.1⟩

/-! ## Bounds of `Output::evaluate` -/

/-- Claim C15: for a non-empty Output `o` whose confidences lie in `[0, 1]` and a
reference of the same length, `0 <= o.evaluate(reference) <= o.evaluate(o) <= 1`. -/
theorem Output.evaluate_bounds (o reference : Output) (hne : o.estimates ≠ [])
    (hconf : ∀ e ∈ o.estimates, 0 ≤ e.confidence ∧ e.confidence ≤ 1)
    (hlen : o.estimates.length = reference.estimates.length) :
    ∃ v w, Output.evaluate o reference = Except.ok v ∧ Output.evaluate o o = Except.ok w ∧
      0 ≤ v ∧ v ≤ w ∧ w ≤ 1 := by
  have hpos : 0 < o.estimates.length := List.length_pos.mpr hne
  have hposq : (0 : ℚ) < (o.estimates.length : ℚ) := by exact_mod_cast hpos
  have hc : ∀ i ∈ Finset.range o.estimates.length,
      0 ≤ o.confidence i ∧ o.confidence i ≤ 1 := by
    intro i hi
    rw [Finset.mem_range] at hi
    unfold Output.confidence
    have hi2 : i < o.m_estmns.length := hi
    rw [List.getD_eq_getElem _ _ hi2]
    exact hconf _ (List.getElem_mem hi2)
  refine ⟨(∑ i ∈ Finset.range o.estimates.length,
      (if o.edge i = reference.edge i then o.confidence i else 0))
        / (o.estimates.length : ℚ),
    (∑ i ∈ Finset.range o.estimates.length,
      (if o.edge i = o.edge i then o.confidence i else 0))
        / (o.estimates.length : ℚ), ?_, ?_, ?_, ?_, ?_⟩
  · unfold Output.evaluate
    rw [if_neg (not_not.mpr hlen), Output.evaluateLoop_zero]
  · unfold Output.evaluate
    rw [if_neg (not_not.mpr rfl), Output.evaluateLoop_zero]
  · apply div_nonneg _ hposq.le
    apply Finset.sum_nonneg
    intro i hi
    split
    · exact (hc i hi).1
    · exact le_refl 0
  · apply div_le_div_of_nonneg_right _ hposq.le
    apply Finset.sum_le_sum
    intro i hi
    rw [if_pos rfl]
    split
    · exact le_refl _
    · exact (hc i hi).1
  · rw [div_le_one hposq]
    have hs : ∑ i ∈ Finset.range o.estimates.length,
        (if o.edge i = o.edge i then o.confidence i else 0)
        ≤ ∑ _i ∈ Finset.range o.estimates.length, (1 : ℚ) := by
      apply Finset.sum_le_sum
      intro i hi
      rw [if_pos rfl]
      exact (hc i hi).2
    simpa using hs

/-- Claim C15 on the scenario of the specification: the score `0.6` against the
reference lies between `0` and the self score `0.75`. -/
theorem Output.evaluate_bounds_witness :
    ∃ v w, Output.evaluate ⟨[⟨1, 9 / 10⟩, ⟨2, 8 / 10⟩, ⟨3, 7 / 10⟩, ⟨4, 6 / 10⟩]⟩
        ⟨[⟨1, 1⟩, ⟨2, 1⟩, ⟨3, 1⟩, ⟨5, 1⟩]⟩ = Except.ok v ∧
      Output.evaluate ⟨[⟨1, 9 / 10⟩, ⟨2, 8 / 10⟩, ⟨3, 7 / 10⟩, ⟨4, 6 / 10⟩]⟩
        ⟨[⟨1, 9 / 10⟩, ⟨2, 8 / 10⟩, ⟨3, 7 / 10⟩, ⟨4, 6 / 10⟩]⟩ = Except.ok w ∧
      0 ≤ v ∧ v ≤ w ∧ w ≤ 1 :=
  Output.evaluate_bounds ⟨[⟨1, 9 / 10⟩, ⟨2, 8 / 10⟩, ⟨3, 7 / 10⟩, ⟨4, 6 / 10⟩]⟩
    ⟨[⟨1, 1⟩, ⟨2, 1⟩, ⟨3, 1⟩, ⟨5, 1⟩]⟩
    (by simp [Output.estimates])
    (by
      intro e he
      simp only [Output.estimates, List.mem_cons, List.mem_singleton, List.not_mem_nil,
        or_false] at he
      rcases he with he | he | he | he <;> rw [he] <;> norm_num)
    (by rfl)

/-! ## `MapPoint::operator<` -/

/-- Claim C16 fails on the code: `operator<` compares the left `maxError` with
the right `maxError` truncated to `int`. With `maxError` `1.25` and `1.5` the
left is smaller but `operator<` is false, and a point of `maxError` `-1.5` is
smaller than itself. -/
theorem MapPoint.lt_truncates :
    (MapPoint.setMaxError ⟨0, 0⟩ (5 / 4)).maxError
        < (MapPoint.setMaxError ⟨0, 0⟩ (3 / 2)).maxError ∧
    MapPoint.getMaxError (MapPoint.setMaxError ⟨0, 0⟩ (3 / 2)) = 1 ∧
    MapPoint.lt (MapPoint.setMaxError ⟨0, 0⟩ (5 / 4))
        (MapPoint.setMaxError ⟨0, 0⟩ (3 / 2)) = false ∧
    MapPoint.getMaxError (MapPoint.setMaxError ⟨0, 0⟩ (-3 / 2)) = -1 ∧
    MapPoint.lt (MapPoint.setMaxError ⟨0, 0⟩ (-3 / 2))
        (MapPoint.setMaxError ⟨0, 0⟩ (-3 / 2)) = true := by
  have h1 : truncToInt (3 / 2) = 1 := by
    unfold truncToInt
    rw [if_pos (by norm_num), Int.floor_eq_iff]
    norm_num
  have h2 : truncToInt (-3 / 2) = -1 := by
    unfold truncToInt
    rw [if_neg (by norm_num), Int.ceil_eq_iff]
    norm_num
  refine ⟨?_, ?_, ?_, ?_, ?_⟩
  · simp only [MapPoint.setMaxError]
    norm_num
  · simp only [MapPoint.getMaxError, MapPoint.setMaxError, h1]
  · simp only [MapPoint.lt, MapPoint.getMaxError, MapPoint.setMaxError, h1]
    norm_num
  · simp only [MapPoint.getMaxError, MapPoint.setMaxError, h2]
  · simp only [MapPoint.lt, MapPoint.getMaxError, MapPoint.setMaxError, h2]
    norm_num

/-! ## Totality of record parsing -/

theorem findAux_bound (c : Char) (s : List Char) (i : Nat) :
    findAux c s i = npos ∨ findAux c s i < i + s.length := by
  induction s generalizing i with
  | nil => exact Or.inl rfl
  | cons x xs ih =>
    rw [findAux]
    split
    · right
      rw [List.length_cons]
      omega
    · rcases ih (i + 1) with h | h
      · exact Or.inl h
      · right
        rw [List.length_cons]
        omega

theorem find_bound (s : List Char) (c : Char) (pos : Nat) :
    find s c pos = npos ∨ find s c pos < s.length := by
  unfold find
  by_cases hp : pos ≤ s.length
  · rcases findAux_bound c (s.drop pos) pos with h | h
    · exact Or.inl h
    · right
      rw [List.length_drop] at h
      omega
  · left
    rw [List.drop_eq_nil_of_le (by omega)]
    rfl

/-- The start position after a search result never exceeds the length of the
string: the position after a found delimiter, or `0` after `npos`. -/
theorem next_pos_le (s : List Char) (c : Char) (pos : Nat) :
    (find s c pos + 1) % 2 ^ 64 ≤ s.length := by
  rcases find_bound s c pos with h | h
  · rw [h]
    unfold npos
    omega
  · have := Nat.mod_le (find s c pos + 1) (2 ^ 64)
    omega

theorem substr_ok (s : List Char) (pos count : Nat) (h : pos ≤ s.length) :
    substr s pos count = Except.ok ((s.drop pos).take count) := by
  unfold substr
  rw [if_neg (by omega)]

theorem Output.parseLine_total (s : List Char) : ∃ e, Output.parseLine s = Except.ok e := by
  unfold Output.parseLine
  simp only [substr_ok _ _ _ (next_pos_le s IO_DELIM _)]
  exact ⟨_, rfl⟩

theorem Input.parseLineUTM_total (s : List Char) :
    ∃ node, Input.parseLineUTM s = Except.ok node := by
  unfold Input.parseLineUTM
  simp only [substr_ok _ _ _ (next_pos_le s IO_DELIM _)]
  exact ⟨_, rfl⟩

theorem getline_length (stream s rest : List Char) (h : getline stream = some (s, rest)) :
    rest.length < stream.length := by
  cases stream with
  | nil => simp [getline] at h
  | cons c cs =>
    simp only [getline, Option.some.injEq, Prod.mk.injEq] at h
    have hl := (List.dropWhile_suffix (l := c :: cs) (fun x => x != '\n')).length_le
    rw [← h.2, List.length_tail]
    simp only [List.length_cons] at hl ⊢
    omega

theorem readLines_of_none (stream : List Char) (h : getline stream = none) :
    readLines stream = [] := by
  rw [readLines]
  split
  · rfl
  · rename_i hs
    rw [h] at hs
    exact Option.noConfusion hs

theorem readLines_of_some (stream s rest : List Char) (h : getline stream = some (s, rest)) :
    readLines stream = s :: readLines rest := by
  rw [readLines]
  split
  · rename_i hn
    rw [h] at hn
    exact Option.noConfusion hn
  · rename_i s2 rest2 hs
    rw [h] at hs
    simp only [Option.some.injEq, Prod.mk.injEq] at hs
    rw [hs.1, hs.2]

theorem Output.loadLoop_of_none (stream : List Char) (estmns : List Estimate)
    (h : getline stream = none) : Output.loadLoop stream estmns = Except.ok estmns := by
  rw [Output.loadLoop]
  split
  · rfl
  · rename_i hs
    rw [h] at hs
    exact Option.noConfusion hs

theorem Output.loadLoop_of_some (stream s rest : List Char) (estmns : List Estimate)
    (estmn : Estimate) (h : getline stream = some (s, rest))
    (hp : Output.parseLine s = Except.ok estmn) :
    Output.loadLoop stream estmns = Output.loadLoop rest (estmns ++ [estmn]) := by
  rw [Output.loadLoop]
  split
  · rename_i hn
    rw [h] at hn
    exact Option.noConfusion hn
  · rename_i s2 rest2 hs
    rw [h] at hs
    simp only [Option.some.injEq, Prod.mk.injEq] at hs
    rw [← hs.1, ← hs.2, hp]

theorem Input.loadUTMLoop_of_none (stream : List Char) (nodes : List UTMNode)
    (h : getline stream = none) : Input.loadUTMLoop stream nodes = Except.ok nodes := by
  rw [Input.loadUTMLoop]
  split
  · rfl
  · rename_i hs
    rw [h] at hs
    exact Option.noConfusion hs

theorem Input.loadUTMLoop_of_some (stream s rest : List Char) (nodes : List UTMNode)
    (node : UTMNode) (h : getline stream = some (s, rest))
    (hp : Input.parseLineUTM s = Except.ok node) :
    Input.loadUTMLoop stream nodes = Input.loadUTMLoop rest (nodes ++ [node]) := by
  rw [Input.loadUTMLoop]
  split
  · rename_i hn
    rw [h] at hn
    exact Option.noConfusion hn
  · rename_i s2 rest2 hs
    rw [h] at hs
    simp only [Option.some.injEq, Prod.mk.injEq] at hs
    rw [← hs.1, ← hs.2, hp]

/-- The loop of `Output::load` on any stream: it ends without an exception and
appends one estimate per line read, the one parsed from that line. -/
theorem Output.loadLoop_total (n : Nat) : ∀ (stream : List Char) (estmns : List Estimate),
    stream.length ≤ n →
    ∃ es, Output.loadLoop stream estmns = Except.ok (estmns ++ es) ∧
      List.Forall₂ (fun l e => Output.parseLine l = Except.ok e) (readLines stream) es := by
  induction n with
  | zero =>
    intro stream estmns hn
    have hnil : stream = [] := List.length_eq_zero.mp (by omega)
    subst hnil
    refine ⟨[], ?_, ?_⟩
    · rw [Output.loadLoop_of_none [] estmns rfl, List.append_nil]
    · rw [readLines_of_none [] rfl]
      exact List.Forall₂.nil
  | succ n ih =>
    intro stream estmns hn
    cases hg : getline stream with
    | none =>
      refine ⟨[], ?_, ?_⟩
      · rw [Output.loadLoop_of_none stream estmns hg, List.append_nil]
      · rw [readLines_of_none stream hg]
        exact List.Forall₂.nil
    | some p =>
      obtain ⟨s, rest⟩ := p
      obtain ⟨e, he⟩ := Output.parseLine_total s
      have hlt := getline_length stream s rest hg
      obtain ⟨es, h1, h2⟩ := ih rest (estmns ++ [e]) (by omega)
      refine ⟨e :: es, ?_, ?_⟩
      · rw [Output.loadLoop_of_some stream s rest estmns e hg he, h1]
        simp
      · rw [readLines_of_some stream s rest hg]
        exact List.Forall₂.cons he h2

/-- The loop of `Input::loadUTM` on any stream: it ends without an exception and
appends one observation per line read, the one parsed from that line. -/
theorem Input.loadUTMLoop_total (n : Nat) : ∀ (stream : List Char) (nodes : List UTMNode),
    stream.length ≤ n →
    ∃ ns, Input.loadUTMLoop stream nodes = Except.ok (nodes ++ ns) ∧
      List.Forall₂ (fun l e => Input.parseLineUTM l = Except.ok e) (readLines stream) ns := by
  induction n with
  | zero =>
    intro stream nodes hn
    have hnil : stream = [] := List.length_eq_zero.mp (by omega)
    subst hnil
    refine ⟨[], ?_, ?_⟩
    · rw [Input.loadUTMLoop_of_none [] nodes rfl, List.append_nil]
    · rw [readLines_of_none [] rfl]
      exact List.Forall₂.nil
  | succ n ih =>
    intro stream nodes hn
    cases hg : getline stream with
    | none =>
      refine ⟨[], ?_, ?_⟩
      · rw [Input.loadUTMLoop_of_none stream nodes hg, List.append_nil]
      · rw [readLines_of_none stream hg]
        exact List.Forall₂.nil
    | some p =>
      obtain ⟨s, rest⟩ := p
      obtain ⟨e, he⟩ := Input.parseLineUTM_total s
      have hlt := getline_length stream s rest hg
      obtain ⟨ns, h1, h2⟩ := ih rest (nodes ++ [e]) (by omega)
      refine ⟨e :: ns, ?_, ?_⟩
      · rw [Input.loadUTMLoop_of_some stream s rest nodes e hg he, h1]
        simp
      · rw [readLines_of_some stream s rest hg]
        exact List.Forall₂.cons he h2

/-- Claim C14: on every line, the start positions that `Output::load` and
`Input::loadUTM` pass to `substr` do not exceed the length of the line, so that
both record parsers return a record without an exception; on every stream both
loops end normally with exactly one record appended per line read, each parsed
from its line, and the number of loaded records is the number of lines read. -/
theorem record_parsing_total :
    (∀ s : List Char,
      (find s IO_DELIM 0 + 1) % 2 ^ 64 ≤ s.length ∧
      (find s IO_DELIM ((find s IO_DELIM 0 + 1) % 2 ^ 64) + 1) % 2 ^ 64 ≤ s.length) ∧
    (∀ s : List Char, ∃ e, Output.parseLine s = Except.ok e) ∧
    (∀ s : List Char, ∃ node, Input.parseLineUTM s = Except.ok node) ∧
    (∀ (self : Output) (content : List Char), ∃ loaded,
      Output.load self (some content) = Except.ok loaded ∧
      List.Forall₂ (fun l e => Output.parseLine l = Except.ok e)
        (readLines content) loaded.m_estmns ∧
      loaded.m_estmns.length = (readLines content).length) ∧
    (∀ (self : Input) (content : List Char), ∃ ns,
      Input.loadUTM self (some content) = Except.ok ⟨self.m_nodes ++ ns⟩ ∧
      List.Forall₂ (fun l e => Input.parseLineUTM l = Except.ok e) (readLines content) ns ∧
      ns.length = (readLines content).length) ∧
    Output.parseLine [] = Except.ok ⟨0, 0⟩ ∧
    readLines ['\n', 'x'] = [[], ['x']] := by
  refine ⟨fun s => ⟨next_pos_le s IO_DELIM 0, next_pos_le s IO_DELIM _⟩,
    Output.parseLine_total, Input.parseLineUTM_total, ?_, ?_, ?_, ?_⟩
  · intro self content
    obtain ⟨es, h1, h2⟩ := Output.loadLoop_total content.length content [] (le_refl _)
    refine ⟨⟨es⟩, ?_, h2, h2.length_eq.symm⟩
    unfold Output.load
    simp only [h1, List.nil_append]
  · intro self content
    obtain ⟨ns, h1, h2⟩ :=
      Input.loadUTMLoop_total content.length content self.m_nodes (le_refl _)
    refine ⟨ns, ?_, h2, h2.length_eq.symm⟩
    unfold Input.loadUTM
    simp only [h1]
  · simp [Output.parseLine, find, findAux, npos, substr, atoi, atof, atofMagnitude, takeSign,
      digitsVal]
  · rw [readLines_of_some ['\n', 'x'] [] ['x'] (by simp [getline]),
      readLines_of_some ['x'] ['x'] [] (by simp [getline]),
      readLines_of_none [] rfl]

/-! ## `match_frechet` -/

/-- Claim C11: for every graph, index, trace and `maxError²`, `match_frechet`
returns an Output with exactly one estimate per observation of the trace
(`|Output| = |Trace|`), in observation order: the estimate at index `i` is the
one assigned to observation `i`. When the match fails (`InputError`: empty
trace, graph without edges, malformed `GeomId`) every estimate is the sentinel,
and the Output of an empty trace is empty. -/
theorem match_frechet_length (search : Search) (graph : RoadGraph) (index : SpatialIndex)
    (input : Input) (max_error2 : ℚ) :
    (match_frechet search graph index input max_error2).output.estimates.length
      = input.m_nodes.length ∧
    (∀ i, i < input.m_nodes.length →
      (match_frechet search graph index input max_error2).output.m_estmns[i]?
        = some (match_frechet_estimate search graph index input max_error2 i)) ∧
    (∀ i, input.m_nodes.length ≤ i →
      (match_frechet search graph index input max_error2).output.m_estmns[i]? = none) ∧
    ((match_frechet search graph index input max_error2).error = some ErrorKind.InputError ↔
      (input.m_nodes = [] ∨ graph.m_edgeIndex = [] ∨
        search graph index input max_error2 = none)) ∧
    ((match_frechet search graph index input max_error2).error = none ∨
      (match_frechet search graph index input max_error2).error
        = some ErrorKind.InputError) ∧
    (∀ finalised, (match_frechet search graph index input max_error2).error = none →
      search graph index input max_error2 = some finalised →
      ∀ i, match_frechet_estimate search graph index input max_error2 i =
        (match finalised i with
          | some e => e
          | none => ⟨-1, 0⟩)) ∧
    ((match_frechet search graph index input max_error2).error = some ErrorKind.InputError →
      ∀ i, match_frechet_estimate search graph index input max_error2 i = ⟨-1, 0⟩) := by
  have hfail : match_frechet_fails search graph index input max_error2 = true ↔
      (input.m_nodes = [] ∨ graph.m_edgeIndex = [] ∨
        search graph index input max_error2 = none) := by
    unfold match_frechet_fails
    simp only [Bool.or_eq_true, List.isEmpty_iff, Option.isNone_iff_eq_none]
    tauto
  refine ⟨?_, ?_, ?_, ?_, ?_, ?_, ?_⟩
  · simp [match_frechet, Output.estimates]
  · intro i hi
    simp [match_frechet, hi]
  · intro i hi
    simp [match_frechet, hi]
  · rw [← hfail]
    unfold match_frechet
    by_cases h : match_frechet_fails search graph index input max_error2 = true
    · simp [h]
    · simp [h]
  · unfold match_frechet
    by_cases h : match_frechet_fails search graph index input max_error2 = true
    · simp [h]
    · simp [h]
  · intro finalised herr hs i
    have h : ¬ match_frechet_fails search graph index input max_error2 = true := by
      intro h
      simp [match_frechet, h] at herr
    unfold match_frechet_estimate
    rw [if_neg h, hs]
  · intro herr i
    have h : match_frechet_fails search graph index input max_error2 = true := by
      by_contra h
      simp [match_frechet, h] at herr
    unfold match_frechet_estimate
    rw [if_pos h]

/-- Claim C11 on a trace of three observations over a graph with one edge, the
second observation having no finalised state: three estimates, the second one
the sentinel. -/
theorem match_frechet_length_witness :
    (match_frechet
        (fun _ _ _ _ => some (fun i => if i = 1 then none else some ⟨0, 1⟩))
        ⟨[⟨0, 0⟩, ⟨100, 0⟩], [⟨0, 0, 1, 1, 100, [⟨0, 0⟩, ⟨100, 0⟩]⟩]⟩
        ⟨fun _ _ _ => []⟩ ⟨[⟨10, 0⟩, ⟨1000, 1000⟩, ⟨90, 0⟩]⟩ 22500).output.estimates.length
      = 3 ∧
    (match_frechet
        (fun _ _ _ _ => some (fun i => if i = 1 then none else some ⟨0, 1⟩))
        ⟨[⟨0, 0⟩, ⟨100, 0⟩], [⟨0, 0, 1, 1, 100, [⟨0, 0⟩, ⟨100, 0⟩]⟩]⟩
        ⟨fun _ _ _ => []⟩ ⟨[⟨10, 0⟩, ⟨1000, 1000⟩, ⟨90, 0⟩]⟩ 22500).output.m_estmns[1]?
      = some ⟨-1, 0⟩ := by
  have h := match_frechet_length
    (fun _ _ _ _ => some (fun i => if i = 1 then none else some ⟨0, 1⟩))
    ⟨[⟨0, 0⟩, ⟨100, 0⟩], [⟨0, 0, 1, 1, 100, [⟨0, 0⟩, ⟨100, 0⟩]⟩]⟩
    ⟨fun _ _ _ => []⟩ ⟨[⟨10, 0⟩, ⟨1000, 1000⟩, ⟨90, 0⟩]⟩ 22500
  refine ⟨h.1, ?_⟩
  rw [h.2.1 1 (by simp)]
  simp [match_frechet_estimate, match_frechet_fails]

end mmatch
